import Mathlib

/-!
Verification of the ingram eslint-plugin-recommended rule engine.

The six rules are shallowly embedded: each rule becomes a Lean function
from a per-rule projection of the estree AST (carrying exactly the fields
the rule reads, plus source ranges and token positions supplied by the
parser) to the list of diagnostics the rule reports.  Text edits are
half-open byte ranges with replacement strings, applied the way the host
fixer applies them (sort by range, concatenate unedited gaps and
replacements).  JavaScript string operations used by the rules
(endsWith, startsWith, includes, split, replace) are modelled over the
character lists of Lean strings.
-/

/-- A half-open range [start, stop) of byte positions in the source text. -/
structure Rng where
  start : Nat
  stop : Nat
deriving DecidableEq, Repr

/-- A single text edit: replace the text in `rng` by `repl`. -/
structure Edit where
  rng : Rng
  repl : String
deriving DecidableEq, Repr

/-- A diagnostic as reported by a rule: message id, substitution data,
anchor range and an optional fix (a list of edits). -/
structure Diagnostic where
  messageId : String
  data : List (String × String)
  anchor : Rng
  fix : Option (List Edit)
deriving DecidableEq, Repr

/-- Model of JavaScript String.prototype.endsWith. -/
def jsEndsWith (s t : String) : Bool := t.data.isSuffixOf s.data

/-- Model of JavaScript String.prototype.startsWith. -/
def jsStartsWith (s t : String) : Bool := t.data.isPrefixOf s.data

/-- Contiguous-substring test on character lists. -/
def listContains (hay pat : List Char) : Bool :=
  match hay with
  | [] => pat.isEmpty
  | _ :: t => pat.isPrefixOf hay || listContains t pat

/-- Model of JavaScript String.prototype.includes. -/
def jsIncludes (s t : String) : Bool := listContains s.data t.data

/-- First index of the pattern in the character list. -/
def strIndexOf (hay pat : List Char) : Option Nat :=
  match hay with
  | [] => if pat.isEmpty then some 0 else none
  | _ :: t => if pat.isPrefixOf hay then some 0 else (strIndexOf t pat).map (· + 1)

/-- The scan of JavaScript String.prototype.split with a nonempty
separator: cut at each leftmost occurrence.  The fuel argument, set to
the input length plus one, suffices because each step consumes at least
the separator. -/
def splitGo : Nat → List Char → List Char → List (List Char)
  | 0, cs, _ => [cs]
  | fuel + 1, cs, sep =>
    match strIndexOf cs sep with
    | none => [cs]
    | some i => cs.take i :: splitGo fuel (cs.drop (i + sep.length)) sep

/-- Model of JavaScript String.prototype.split with a nonempty string
separator. -/
def jsSplit (s sep : String) : List String :=
  (splitGo (s.data.length + 1) s.data sep.data).map String.mk

/-- Model of JavaScript String.prototype.slice(n) for nonnegative n. -/
def jsDrop (s : String) (n : Nat) : String := String.mk (s.data.drop n)

/-- Model of JavaScript String.prototype.trim (ASCII whitespace, which
covers the type-annotation texts the rules trim). -/
def jsTrim (s : String) : String :=
  String.mk (((s.data.dropWhile Char.isWhitespace).reverse.dropWhile Char.isWhitespace).reverse)

/-- Two ranges overlap when some position lies in both. -/
def Rng.Overlap (a b : Rng) : Prop :=
  ∃ p, (a.start ≤ p ∧ p < a.stop) ∧ (b.start ≤ p ∧ p < b.stop)

/-- Boolean separation test: the ranges are ordered one fully before the
other.  Separation implies absence of overlap. -/
def sepB (a b : Rng) : Bool := decide (a.stop ≤ b.start) || decide (b.stop ≤ a.start)

theorem sepB_symm (a b : Rng) : sepB a b = sepB b a := by
  simp [sepB, Bool.or_comm]

theorem not_overlap_of_sepB {a b : Rng} (h : sepB a b = true) : ¬ Rng.Overlap a b := by
  rintro ⟨p, ⟨ha1, ha2⟩, hb1, hb2⟩
  rcases Bool.or_eq_true_iff.mp h with h1 | h1 <;> rw [decide_eq_true_iff] at h1 <;> omega

/-- All pairs of edits in the list have separated ranges. -/
def pairwiseSep : List Edit → Bool
  | [] => true
  | e :: es => es.all (fun f => sepB e.rng f.rng) && pairwiseSep es

/-- An edit is well formed for a text of length `len`. -/
def inBounds (len : Nat) (e : Edit) : Bool :=
  decide (e.rng.start ≤ e.rng.stop) && decide (e.rng.stop ≤ len)

/-- Validity of a fix against a text of length `len`: pairwise separated
edits, each within bounds. -/
def editsOk (len : Nat) (es : List Edit) : Bool :=
  pairwiseSep es && es.all (inBounds len)

/-- Lexicographic order on edits used by the host fixer when merging and
applying fixes: by range start, ties broken by range end. -/
def editLe (a b : Edit) : Bool :=
  decide (a.rng.start < b.rng.start) ||
    (decide (a.rng.start = b.rng.start) && decide (a.rng.stop ≤ b.rng.stop))

/-- The order on edits as a decidable relation. -/
def eLe (a b : Edit) : Prop := editLe a b = true

instance : DecidableRel eLe := fun a b => inferInstanceAs (Decidable (editLe a b = true))

instance : IsTotal Edit eLe := by
  constructor
  intro a b
  simp only [eLe, editLe, Bool.or_eq_true, Bool.and_eq_true, decide_eq_true_iff]
  omega

instance : IsTrans Edit eLe := by
  constructor
  intro a b c
  simp only [eLe, editLe, Bool.or_eq_true, Bool.and_eq_true, decide_eq_true_iff]
  omega

/-- Sorting of an edit set by range start (ties by range end), as the
host fixer does before applying. -/
def sortEdits (es : List Edit) : List Edit := List.insertionSort eLe es

/-- The slice [a, b) of a character list. -/
def seg (text : List Char) (a b : Nat) : List Char := (text.take b).drop a

/-- Applying a start-sorted edit list: emit the unedited gap up to each
edit, then its replacement, finally the unedited tail.  This is the host
fixer's behaviour on non-conflicting fixes. -/
def applyGo (text : List Char) : Nat → List Edit → List Char
  | pos, [] => text.drop pos
  | pos, e :: es => seg text pos e.rng.start ++ e.repl.data ++ applyGo text e.rng.stop es

/-- Apply a set of edits to a text: sort, then concatenate gaps and
replacements. -/
def applyEdits (text : List Char) (es : List Edit) : List Char :=
  applyGo text 0 (sortEdits es)

/-- Position in the output text of the unedited input position `p`,
relative to a sorted edit list starting at input position `pos`. -/
def gapIdx : List Edit → Nat → Nat → Nat
  | [], pos, p => p - pos
  | e :: es, pos, p =>
    if p < e.rng.start then p - pos
    else (e.rng.start - pos) + e.repl.length + gapIdx es e.rng.stop p

/-- Position in `applyEdits text es` of the unedited input position `p`. -/
def appIdx (es : List Edit) (p : Nat) : Nat := gapIdx (sortEdits es) 0 p

/-- Sorted-chain form of an edit list: starting from input position
`pos`, each edit begins at or after the current position and ends within
the text, and the next edit starts at or after its end. -/
def ChainFrom (len : Nat) : Nat → List Edit → Prop
  | _, [] => True
  | pos, e :: es =>
    pos ≤ e.rng.start ∧ e.rng.start ≤ e.rng.stop ∧ e.rng.stop ≤ len ∧
      ChainFrom len e.rng.stop es

theorem pairwiseSep_iff (es : List Edit) :
    pairwiseSep es = true ↔ List.Pairwise (fun a b : Edit => sepB a.rng b.rng = true) es := by
  induction es with
  | nil => simp [pairwiseSep]
  | cons e es ih =>
    simp [pairwiseSep, List.pairwise_cons, ih, List.all_eq_true, and_comm]

theorem chainFrom_of_pairwise (len : Nat) :
    ∀ (es : List Edit) (pos : Nat),
      List.Pairwise (fun a b : Edit => a.rng.stop ≤ b.rng.start) es →
      (∀ e ∈ es, e.rng.start ≤ e.rng.stop ∧ e.rng.stop ≤ len) →
      (∀ e ∈ es, pos ≤ e.rng.start) →
      ChainFrom len pos es := by
  intro es
  induction es with
  | nil => intro pos _ _ _; trivial
  | cons e es ih =>
    intro pos hpw hbd hpos
    rcases List.pairwise_cons.mp hpw with ⟨hhead, htail⟩
    refine ⟨hpos e (List.mem_cons_self e es), (hbd e (List.mem_cons_self e es)).1,
      (hbd e (List.mem_cons_self e es)).2, ih e.rng.stop htail ?_ ?_⟩
    · intro f hf; exact hbd f (List.mem_cons_of_mem e hf)
    · intro f hf; exact hhead f hf

theorem seg_length (text : List Char) (a b : Nat) (hb : b ≤ text.length) :
    (seg text a b).length = b - a := by
  simp [seg, List.length_drop, List.length_take]
  omega

theorem seg_getElem (text : List Char) (a b i : Nat) (h : a + i < b) :
    (seg text a b)[i]? = text[a + i]? := by
  simp only [seg, List.getElem?_drop]
  exact List.getElem?_take_of_lt (by omega)

theorem applyGo_getElem (text : List Char) :
    ∀ (es : List Edit) (pos p : Nat),
      ChainFrom text.length pos es → pos ≤ p → p < text.length →
      (∀ e ∈ es, ¬ (e.rng.start ≤ p ∧ p < e.rng.stop)) →
      (applyGo text pos es)[gapIdx es pos p]? = text[p]? := by
  intro es
  induction es with
  | nil =>
    intro pos p _ hpos hp _
    simp only [applyGo, gapIdx, List.getElem?_drop]
    congr 1
    omega
  | cons e es ih =>
    intro pos p hch hpos hp hout
    rcases hch with ⟨h1, h2, h3, hch⟩
    have hnotin := hout e (List.mem_cons_self e es)
    have hseg : (seg text pos e.rng.start).length = e.rng.start - pos :=
      seg_length text pos e.rng.start (by omega)
    by_cases hlt : p < e.rng.start
    · simp only [applyGo, gapIdx, hlt, if_pos]
      rw [List.append_assoc,
        List.getElem?_append_left (by rw [hseg]; omega),
        seg_getElem text pos e.rng.start (p - pos) (by omega)]
      congr 1
      omega
    · have hge : e.rng.stop ≤ p := by omega
      simp only [applyGo, gapIdx, hlt, if_neg, not_false_iff]
      have hrepl : e.repl.data.length = e.repl.length := rfl
      have hlen : (seg text pos e.rng.start ++ e.repl.data).length
          = (e.rng.start - pos) + e.repl.length := by
        rw [List.length_append, hseg, hrepl]
      rw [List.getElem?_append_right (by rw [hlen]; omega)]
      have harith :
          (e.rng.start - pos) + e.repl.length + gapIdx es e.rng.stop p
            - (seg text pos e.rng.start ++ e.repl.data).length
            = gapIdx es e.rng.stop p := by
        rw [hlen]; omega
      rw [harith]
      exact ih e.rng.stop p hch hge hp (fun f hf => hout f (List.mem_cons_of_mem e hf))

theorem applyEdits_preserves (text : List Char) (es : List Edit)
    (hok : editsOk text.length es = true) (p : Nat) (hp : p < text.length)
    (hout : ∀ e ∈ es, ¬ (e.rng.start ≤ p ∧ p < e.rng.stop)) :
    (applyEdits text es)[appIdx es p]? = text[p]? := by
  have hperm : List.Perm (sortEdits es) es := List.perm_insertionSort eLe es
  have hsorted : List.Pairwise eLe (sortEdits es) := List.sorted_insertionSort eLe es
  rcases Bool.and_eq_true_iff.mp hok with ⟨hsep, hbd⟩
  have hsymm : Symmetric (fun a b : Edit => sepB a.rng b.rng = true) := by
    intro a b h
    rw [sepB_symm]
    exact h
  have hsep2 : List.Pairwise (fun a b : Edit => sepB a.rng b.rng = true) (sortEdits es) :=
    (hperm.pairwise_iff (fun {a b} h => hsymm h)).mpr ((pairwiseSep_iff es).mp hsep)
  have hbd2 : ∀ e ∈ sortEdits es, e.rng.start ≤ e.rng.stop ∧ e.rng.stop ≤ text.length := by
    intro e he
    have := List.all_eq_true.mp hbd e (hperm.mem_iff.mp he)
    simpa [inBounds, Bool.and_eq_true, decide_eq_true_iff] using this
  have hcomb : List.Pairwise (fun a b : Edit => a.rng.stop ≤ b.rng.start) (sortEdits es) := by
    have hand := hsorted.and hsep2
    refine hand.imp_of_mem ?_
    intro a b ha hb hr
    rcases hr with ⟨hle, hsp⟩
    have hab := hbd2 a ha
    have hbb := hbd2 b hb
    simp only [eLe, editLe, Bool.or_eq_true, Bool.and_eq_true, decide_eq_true_iff] at hle
    simp only [sepB, Bool.or_eq_true, decide_eq_true_iff] at hsp
    omega
  have hchain : ChainFrom text.length 0 (sortEdits es) :=
    chainFrom_of_pairwise text.length (sortEdits es) 0 hcomb hbd2 (fun _ _ => Nat.zero_le _)
  exact applyGo_getElem text (sortEdits es) 0 p hchain (Nat.zero_le p) hp
    (fun f hf => hout f (hperm.mem_iff.mp hf))

/-- Edits validated by `editsOk` are pairwise non-overlapping. -/
theorem editsOk_pairwise_not_overlap {len : Nat} {es : List Edit}
    (hok : editsOk len es = true) :
    List.Pairwise (fun a b : Edit => ¬ Rng.Overlap a.rng b.rng) es := by
  rcases Bool.and_eq_true_iff.mp hok with ⟨hsep, _⟩
  exact ((pairwiseSep_iff es).mp hsep).imp (fun h => not_overlap_of_sepB h)

namespace InsertRule

/-!
Embedding of src/rules/supabase-no-insert-with-id.ts.  The rule handles
CallExpression nodes; it reads the callee shape, the first argument, and
for object literals the `.name` field of each property key.  The key
comparison in the source is
`prop.type === "Property" && ((prop as Property).key as Identifier).name === "id"`,
so only a key node that is an Identifier carries a name; a string or
numeric literal key, or any other expression used as a computed key, has
no `.name` and never matches.  The parser's `computed` flag on a
property is carried in the model but never read by the rule, exactly as
in the source.
-/

/-- Key of an object-literal property as the rule can observe it. -/
inductive PKey where
  | identK (name : String)
  | litK
  | otherK
deriving DecidableEq, Repr

/-- A member of an ObjectExpression: a Property (key plus the computed
flag) or a spread element. -/
inductive ObjMember where
  | property (key : PKey) (computed : Bool)
  | spread
deriving DecidableEq, Repr

/-- An element of a first-argument array literal: an object literal, any
other expression, or a null hole. -/
inductive ArrElem where
  | objE (members : List ObjMember) (rng : Rng)
  | otherE (rng : Rng)
  | nullE
deriving DecidableEq, Repr

/-- The first argument of the call as inspected by the rule. -/
inductive InsertArg where
  | objectA (members : List ObjMember) (rng : Rng)
  | arrayA (elems : List ArrElem) (rng : Rng)
  | otherA (rng : Rng)
deriving DecidableEq, Repr

/-- The callee shape: a member expression whose property is an
Identifier with the given name (otherwise `member none`), or any other
callee form. -/
inductive Callee where
  | member (propName : Option String)
  | otherC
deriving DecidableEq, Repr

structure CallExpr where
  callee : Callee
  args : List InsertArg
deriving DecidableEq, Repr

/-- The `properties.some(...)` test of the rule. -/
def hasIdProp (members : List ObjMember) : Bool :=
  members.any fun m =>
    match m with
    | .property (.identK n) _ => n == "id"
    | _ => false

def mkDiag (r : Rng) : Diagnostic :=
  { messageId := "noInsertWithId", data := [], anchor := r, fix := none }

/-- Per-element check of the batch (array) form. -/
def checkElem : ArrElem → List Diagnostic
  | .objE members r => if hasIdProp members then [mkDiag r] else []
  | _ => []

/-- The CallExpression handler of the rule. -/
def checkInsertCall (c : CallExpr) : List Diagnostic :=
  if c.callee == Callee.member (some "insert") && decide (c.args.length > 0) then
    match c.args.head? with
    | some (.objectA members r) => if hasIdProp members then [mkDiag r] else []
    | some (.arrayA elems _) =>
        if decide (elems.length > 0) then elems.flatMap checkElem else []
    | _ => []
  else []

/-- Anchors of the offending elements of a batch insert: the object
literals that carry an identifier key named id. -/
def offenders (elems : List ArrElem) : List Rng :=
  elems.filterMap fun e =>
    match e with
    | .objE members r => if hasIdProp members then some r else none
    | _ => none

theorem flatMap_checkElem (elems : List ArrElem) :
    elems.flatMap checkElem = (offenders elems).map mkDiag := by
  induction elems with
  | nil => rfl
  | cons e es ih =>
    cases e with
    | objE members r =>
      by_cases h : hasIdProp members = true
      · simp [checkElem, offenders, h, ih]
      · simp only [Bool.not_eq_true] at h
        simp [checkElem, offenders, h, ih]
    | otherE r => simpa [checkElem, offenders] using ih
    | nullE => simpa [checkElem, offenders] using ih

theorem hasIdProp_iff (members : List ObjMember) :
    hasIdProp members = true ↔ ∃ comp, ObjMember.property (PKey.identK "id") comp ∈ members := by
  rw [hasIdProp, List.any_eq_true]
  constructor
  · rintro ⟨m, hm, hf⟩
    cases m with
    | property k comp =>
      cases k with
      | identK n =>
        have : n = "id" := by simpa using hf
        exact ⟨comp, this ▸ hm⟩
      | litK => simp at hf
      | otherK => simp at hf
    | spread => simp at hf
  · rintro ⟨comp, hm⟩
    exact ⟨_, hm, by simp⟩

theorem checkInsertCall_no_fix (c : CallExpr) :
    ∀ d ∈ checkInsertCall c, d.fix = none := by
  intro d hd
  rw [checkInsertCall] at hd
  split at hd
  · split at hd
    · split at hd
      · simp only [List.mem_singleton] at hd
        rw [hd, mkDiag]
      · simp at hd
    · split at hd
      · rw [flatMap_checkElem] at hd
        rcases List.mem_map.mp hd with ⟨r, _, hr⟩
        rw [← hr, mkDiag]
      · simp at hd
    · simp at hd
  · simp at hd

end InsertRule

section
open InsertRule

/-- Claim C7: for every call to a method named insert whose first
argument is an array literal, the rule reports one diagnostic per
object-literal element containing a property keyed id, each anchored at
that element; in particular the batch [obj with id, obj with name]
yields exactly one diagnostic anchored at the first element, and no fix
is ever offered by this rule. -/
theorem C7_insert_batch_per_element (c : CallExpr) (elems : List ArrElem)
    (ra : Rng) (rest : List InsertArg)
    (hcallee : c.callee = Callee.member (some "insert"))
    (hargs : c.args = InsertArg.arrayA elems ra :: rest) :
    checkInsertCall c = (offenders elems).map mkDiag ∧
    (∀ r1 r2 : Rng,
      checkInsertCall
        ⟨Callee.member (some "insert"),
          [InsertArg.arrayA
            [ArrElem.objE [ObjMember.property (PKey.identK "id") false] r1,
             ArrElem.objE [ObjMember.property (PKey.identK "name") false] r2] ra]⟩
        = [mkDiag r1]) ∧
    (∀ c2 : CallExpr, ∀ d ∈ checkInsertCall c2, d.fix = none) := by
  refine ⟨?_, ?_, checkInsertCall_no_fix⟩
  · obtain ⟨callee, args⟩ := c
    simp only at hcallee hargs
    subst hcallee
    subst hargs
    have hbatch :
        (if decide (elems.length > 0) = true then elems.flatMap checkElem else [])
          = elems.flatMap checkElem := by
      cases elems <;> simp
    rw [checkInsertCall]
    simp only [beq_self_eq_true, List.length_cons, gt_iff_lt, Nat.succ_pos,
      List.head?_cons]
    rw [hbatch, flatMap_checkElem]
    simp
  · intro r1 r2
    rfl

/-- Witness for C7 at a concrete batch insert call. -/
theorem C7_insert_batch_per_element_witness :
    checkInsertCall
      ⟨Callee.member (some "insert"),
        [InsertArg.arrayA
          [ArrElem.objE [ObjMember.property (PKey.identK "id") false] ⟨13, 22⟩,
           ArrElem.objE [ObjMember.property (PKey.identK "name") false] ⟨24, 37⟩] ⟨12, 38⟩]⟩
      = [mkDiag ⟨13, 22⟩] :=
  (C7_insert_batch_per_element
    ⟨Callee.member (some "insert"),
      [InsertArg.arrayA
        [ArrElem.objE [ObjMember.property (PKey.identK "id") false] ⟨13, 22⟩,
         ArrElem.objE [ObjMember.property (PKey.identK "name") false] ⟨24, 37⟩] ⟨12, 38⟩]⟩
    [ArrElem.objE [ObjMember.property (PKey.identK "id") false] ⟨13, 22⟩,
     ArrElem.objE [ObjMember.property (PKey.identK "name") false] ⟨24, 37⟩]
    ⟨12, 38⟩ [] rfl rfl).2.1 ⟨13, 22⟩ ⟨24, 37⟩

/-- Claim C10 counterexample: the call table.insert with first argument
an object literal whose single property has the computed key [id] (a
computed key whose key expression is an Identifier named id) does get a
diagnostic, refuting the claim that computed keys are never reported. -/
theorem C10_computed_key_counterexample :
    checkInsertCall
      ⟨Callee.member (some "insert"),
        [InsertArg.objectA [ObjMember.property (PKey.identK "id") true] ⟨13, 23⟩]⟩
      = [mkDiag ⟨13, 23⟩] ∧
    checkInsertCall
      ⟨Callee.member (some "insert"),
        [InsertArg.objectA [ObjMember.property (PKey.identK "id") true] ⟨13, 23⟩]⟩
      ≠ [] := by
  constructor
  · rfl
  · intro h
    simp [checkInsertCall, hasIdProp, mkDiag] at h

/-- Claim C10 amended: the insert rule matches the offending property
solely by its key node being an Identifier named id, irrespective of the
computed flag: a string-literal or otherwise non-identifier key is never
reported, while a computed key whose expression is the identifier id is
reported. -/
theorem C10_key_match_amended (c : CallExpr) (members : List ObjMember)
    (r : Rng) (rest : List InsertArg)
    (hcallee : c.callee = Callee.member (some "insert"))
    (hargs : c.args = InsertArg.objectA members r :: rest) :
    checkInsertCall c = (if hasIdProp members then [mkDiag r] else []) ∧
    (hasIdProp members = true ↔
      ∃ comp, ObjMember.property (PKey.identK "id") comp ∈ members) := by
  refine ⟨?_, hasIdProp_iff members⟩
  obtain ⟨callee, args⟩ := c
  simp only at hcallee hargs
  subst hcallee
  subst hargs
  simp [checkInsertCall]

/-- Witness for the amended C10 at a concrete call with a string-literal
key: no diagnostic. -/
theorem C10_key_match_amended_witness :
    checkInsertCall
      ⟨Callee.member (some "insert"),
        [InsertArg.objectA [ObjMember.property PKey.litK false] ⟨13, 25⟩]⟩
      = [] := by
  have h := C10_key_match_amended
    ⟨Callee.member (some "insert"),
      [InsertArg.objectA [ObjMember.property PKey.litK false] ⟨13, 25⟩]⟩
    [ObjMember.property PKey.litK false] ⟨13, 25⟩ [] rfl rfl
  simpa [hasIdProp] using h.1

end

namespace DirectImports

/-!
Embedding of the supabase-no-direct-imports rule.  The handler fires on
each ImportDeclaration; it reads the source module string, the file
name, and the imported names of the ImportSpecifier entries.  The
createClient case from "@supabase/supabase-js" gets a fix that rewrites
the import source string; the createServerClient case from
"@supabase/ssr" is reported without a fix.
-/

inductive Specifier where
  | named (imported : String)
  | defaultS
  | namespaceS
deriving DecidableEq, Repr

structure ImportDecl where
  source : String
  sourceRng : Rng
  specifiers : List Specifier
  rng : Rng
deriving DecidableEq, Repr

/-- The replacement map entry for createClient. -/
def replacementClient : String := "@/integrations/supabase/client"

/-- `node.specifiers.filter(ImportSpecifier).map(spec => spec.imported.name)`. -/
def importedNames (specs : List Specifier) : List String :=
  specs.filterMap fun s =>
    match s with
    | .named n => some n
    | _ => none

/-- The ImportDeclaration handler of the rule.  The two source-module
branches are disjoint (an import source is a single string), so the
early returns inside the first branch never affect the second. -/
def checkImportDecl (filename : String) (node : ImportDecl) : List Diagnostic :=
  (if node.source == "@supabase/supabase-js" then
    if jsIncludes filename "src/integrations/supabase/" then []
    else if jsIncludes filename "supabase/functions/" then []
    else if (importedNames node.specifiers).contains "createClient" then
      [{ messageId := "noDirectSupabaseImport",
         data := [("source", node.source), ("replacement", replacementClient)],
         anchor := node.rng,
         fix := some [⟨node.sourceRng, "\"" ++ replacementClient ++ "\""⟩] }]
    else []
  else []) ++
  (if node.source == "@supabase/ssr" then
    if jsIncludes filename "src/lib/supabase/" then []
    else if (importedNames node.specifiers).contains "createServerClient" then
      [{ messageId := "noDirectSSRImport",
         data := [("source", node.source)],
         anchor := node.rng,
         fix := none }]
    else []
  else [])

end DirectImports

section
open DirectImports

/-- Claim C9: for every import declaration with source "@supabase/ssr"
whose import specifiers include createServerClient, in a file whose path
does not contain "src/lib/supabase/", the rule reports exactly one
diagnostic, and that diagnostic carries no fix. -/
theorem C9_ssr_import_no_fix (filename : String) (node : ImportDecl)
    (hsrc : node.source = "@supabase/ssr")
    (hspec : (importedNames node.specifiers).contains "createServerClient" = true)
    (hpath : jsIncludes filename "src/lib/supabase/" = false) :
    checkImportDecl filename node
      = [{ messageId := "noDirectSSRImport",
           data := [("source", "@supabase/ssr")],
           anchor := node.rng,
           fix := none }] := by
  obtain ⟨source, sourceRng, specifiers, rng⟩ := node
  simp only at hsrc hspec
  subst hsrc
  simp [checkImportDecl, hspec, hpath]
  simpa using hspec

/-- Witness for C9 at a concrete file and import declaration. -/
theorem C9_ssr_import_no_fix_witness :
    checkImportDecl "src/app/admin/page.tsx"
      ⟨"@supabase/ssr", ⟨40, 55⟩, [Specifier.named "createServerClient"], ⟨0, 56⟩⟩
      = [{ messageId := "noDirectSSRImport",
           data := [("source", "@supabase/ssr")],
           anchor := ⟨0, 56⟩,
           fix := none }] :=
  C9_ssr_import_no_fix "src/app/admin/page.tsx"
    ⟨"@supabase/ssr", ⟨40, 55⟩, [Specifier.named "createServerClient"], ⟨0, 56⟩⟩
    rfl (by decide) (by decide)

end

namespace Lucide

/-!
Embedding of the lucide-icon-suffix rule.  The handler fires on each
ImportDeclaration with source "lucide-react" and walks the specifiers;
for a named specifier whose imported name does not end in "Icon" it
reports a diagnostic anchored at the specifier, with a fix that rewrites
the imported identifier and, when the import is not aliased, every
reference of the declared variable except the import's own local
identifier.  The scope query `getDeclaredVariables` is modelled as data
on the declaration: the variables it declares, each with its references.
A reference records whether its identifier is the declaring specifier's
local identifier node (the source's `ref.identifier !== local` test);
the try/catch around the scope query is modelled as the no-throw path,
the query being a total lookup here.
-/

structure Ref where
  rng : Rng
  isLocalNode : Bool
deriving DecidableEq, Repr

structure DeclaredVar where
  name : String
  refs : List Ref
deriving DecidableEq, Repr

inductive Specifier where
  | named (imported : String) (importedRng : Rng) (localName : String) (specRng : Rng)
  | other
deriving DecidableEq, Repr

structure ImportDecl where
  source : String
  specifiers : List Specifier
  declaredVars : List DeclaredVar
deriving DecidableEq, Repr

/-- Edits rewriting every reference of the variables named `localName`,
skipping the import's own local identifier node. -/
def refFixes (suggested : String) (vars : List DeclaredVar) (localName : String) : List Edit :=
  (vars.filter fun v => v.name == localName).flatMap fun v =>
    (v.refs.filter fun ref => !ref.isLocalNode).map fun ref => ⟨ref.rng, suggested⟩

/-- Per-specifier check. -/
def checkSpec (decl : ImportDecl) : Specifier → List Diagnostic
  | .named imported importedRng localName specRng =>
    if jsEndsWith imported "Icon" then []
    else
      [{ messageId := "missingIconSuffix",
         data := [("imported", imported), ("suggested", imported ++ "Icon")],
         anchor := specRng,
         fix := some (⟨importedRng, imported ++ "Icon"⟩ ::
           (if imported == localName then
             refFixes (imported ++ "Icon") decl.declaredVars localName
           else [])) }]
  | .other => []

/-- The ImportDeclaration handler of the rule. -/
def checkLucideImport (decl : ImportDecl) : List Diagnostic :=
  if decl.source == "lucide-react" then decl.specifiers.flatMap (checkSpec decl)
  else []

/-- Anchor a specifier would report at. -/
def anchorOf : Specifier → Option Rng
  | .named _ _ _ specRng => some specRng
  | .other => none

theorem anchor_of_checkSpec (decl : ImportDecl) (s : Specifier) (d : Diagnostic)
    (hd : d ∈ checkSpec decl s) : anchorOf s = some d.anchor := by
  cases s with
  | named imported importedRng localName specRng =>
    rw [checkSpec] at hd
    split at hd
    · simp at hd
    · simp only [List.mem_singleton] at hd
      rw [hd, anchorOf]
  | other => simp [checkSpec] at hd

/-- The expected diagnostic for a violating named specifier. -/
def expectedDiag (decl : ImportDecl) (imported : String) (importedRng : Rng)
    (localName : String) (specRng : Rng) : Diagnostic :=
  { messageId := "missingIconSuffix",
    data := [("imported", imported), ("suggested", imported ++ "Icon")],
    anchor := specRng,
    fix := some (⟨importedRng, imported ++ "Icon"⟩ ::
      (if imported == localName then
        refFixes (imported ++ "Icon") decl.declaredVars localName
      else [])) }

theorem filter_anchor_flatMap (decl : ImportDecl)
    (imported : String) (importedRng : Rng) (localName : String) (specRng : Rng)
    (hsuffix : jsEndsWith imported "Icon" = false) :
    ∀ (ss : List Specifier),
      List.Pairwise (fun s1 s2 => ∀ r, anchorOf s1 = some r → anchorOf s2 ≠ some r) ss →
      Specifier.named imported importedRng localName specRng ∈ ss →
      (ss.flatMap (checkSpec decl)).filter (fun d => d.anchor == specRng)
        = [expectedDiag decl imported importedRng localName specRng] := by
  intro ss
  induction ss with
  | nil => intro _ hmem; simp at hmem
  | cons s ss ih =>
    intro hpw hmem
    rcases List.pairwise_cons.mp hpw with ⟨hhead, htail⟩
    rcases List.mem_cons.mp hmem with heq | hmem2
    · subst heq
      rw [List.flatMap_cons, List.filter_append]
      have h1 : (checkSpec decl (Specifier.named imported importedRng localName specRng)).filter
          (fun d => d.anchor == specRng)
          = [expectedDiag decl imported importedRng localName specRng] := by
        rw [checkSpec, hsuffix]
        simp [expectedDiag]
      have h2 : ((ss.flatMap (checkSpec decl)).filter (fun d => d.anchor == specRng)) = [] := by
        rw [List.filter_eq_nil_iff]
        intro d hd
        rcases List.mem_flatMap.mp hd with ⟨s2, hs2, hds2⟩
        have ha := anchor_of_checkSpec decl s2 d hds2
        have hne := hhead s2 hs2 specRng (by rw [anchorOf])
        simp only [beq_iff_eq]
        intro hcontra
        rw [hcontra] at ha
        exact hne ha
      rw [h1, h2, List.append_nil]
    · rw [List.flatMap_cons, List.filter_append]
      have h1 : (checkSpec decl s).filter (fun d => d.anchor == specRng) = [] := by
        rw [List.filter_eq_nil_iff]
        intro d hd
        have ha := anchor_of_checkSpec decl s d hd
        simp only [beq_iff_eq]
        intro hcontra
        have := hhead (Specifier.named imported importedRng localName specRng) hmem2
          d.anchor ha
        rw [anchorOf] at this
        exact this (by rw [hcontra])
      rw [h1, ih htail hmem2, List.nil_append]

end Lucide

section
open Lucide

/-- Claim C6: for every named import specifier from "lucide-react" whose
imported name does not end in "Icon", the rule reports exactly one
diagnostic on that specifier; its fix replaces the imported name with
name plus "Icon" and, exactly when the local binding name equals the
imported name (no alias), additionally replaces every reference bound to
that import (excluding the import specifier itself); for an aliased
one only the import specifier is rewritten. -/
theorem C6_lucide_specifier_fix (decl : ImportDecl)
    (imported : String) (importedRng : Rng) (localName : String) (specRng : Rng)
    (hsrc : decl.source = "lucide-react")
    (hmem : Specifier.named imported importedRng localName specRng ∈ decl.specifiers)
    (hsuffix : jsEndsWith imported "Icon" = false)
    (hdistinct : List.Pairwise
      (fun s1 s2 => ∀ r, anchorOf s1 = some r → anchorOf s2 ≠ some r) decl.specifiers) :
    (checkLucideImport decl).filter (fun d => d.anchor == specRng)
      = [{ messageId := "missingIconSuffix",
           data := [("imported", imported), ("suggested", imported ++ "Icon")],
           anchor := specRng,
           fix := some (⟨importedRng, imported ++ "Icon"⟩ ::
             (if imported == localName then
               refFixes (imported ++ "Icon") decl.declaredVars localName
             else [])) }] := by
  rw [checkLucideImport, hsrc]
  simp only [beq_self_eq_true, if_true]
  exact filter_anchor_flatMap decl imported importedRng localName specRng hsuffix
    decl.specifiers hdistinct hmem

/-- Witness for C6: the shorthand import of Home from lucide-react with
one use-site reference; the fix rewrites the import specifier and the
reference. -/
theorem C6_lucide_specifier_fix_witness :
    (checkLucideImport
      ⟨"lucide-react",
        [Specifier.named "Home" ⟨9, 13⟩ "Home" ⟨9, 13⟩],
        [⟨"Home", [⟨⟨9, 13⟩, true⟩, ⟨⟨60, 64⟩, false⟩]⟩]⟩).filter
        (fun d => d.anchor == (⟨9, 13⟩ : Rng))
      = [{ messageId := "missingIconSuffix",
           data := [("imported", "Home"), ("suggested", "HomeIcon")],
           anchor := ⟨9, 13⟩,
           fix := some [⟨⟨9, 13⟩, "HomeIcon"⟩, ⟨⟨60, 64⟩, "HomeIcon"⟩] }] := by
  have h := C6_lucide_specifier_fix
    ⟨"lucide-react",
      [Specifier.named "Home" ⟨9, 13⟩ "Home" ⟨9, 13⟩],
      [⟨"Home", [⟨⟨9, 13⟩, true⟩, ⟨⟨60, 64⟩, false⟩]⟩]⟩
    "Home" ⟨9, 13⟩ "Home" ⟨9, 13⟩ rfl (by decide) (by decide) (by decide)
  rw [h]
  rfl

end

namespace UseState

/-!
Embedding of the react-no-redundant-usestate-types rule.  The handler
fires on each CallExpression; it reads the callee name, the resolved
type-argument clause (`typeArguments || typeParameters`), the first type
parameter (kind, source text, range), the first call argument, and three
token positions: the end of the token before the type-argument clause,
the start of the token after it (the open parenthesis), and the end of
the token after the first argument (the close parenthesis).  Type nodes
carry their source text because the simple-redundancy cases compare
`sourceCode.getText(typeParam)` against literal type spellings.
-/

inductive TsTypeNode where
  | unionT (members : List TsTypeNode) (text : String) (rng : Rng)
  | undefT (text : String) (rng : Rng)
  | nullT (text : String) (rng : Rng)
  | arrT (elem : TsTypeNode) (text : String) (rng : Rng)
  | strT (text : String) (rng : Rng)
  | numT (text : String) (rng : Rng)
  | boolT (text : String) (rng : Rng)
  | otherT (text : String) (rng : Rng)

def TsTypeNode.text : TsTypeNode → String
  | .unionT _ t _ => t
  | .undefT t _ => t
  | .nullT t _ => t
  | .arrT _ t _ => t
  | .strT t _ => t
  | .numT t _ => t
  | .boolT t _ => t
  | .otherT t _ => t

def TsTypeNode.rng : TsTypeNode → Rng
  | .unionT _ _ r => r
  | .undefT _ r => r
  | .nullT _ r => r
  | .arrT _ _ r => r
  | .strT _ r => r
  | .numT _ r => r
  | .boolT _ r => r
  | .otherT _ r => r

/-- `t.type === "TSUndefinedKeyword"`. -/
def isUndefKw : TsTypeNode → Bool
  | .undefT _ _ => true
  | _ => false

/-- `t.type === "TSNullKeyword"`. -/
def isNullKw : TsTypeNode → Bool
  | .nullT _ _ => true
  | _ => false

/-- Element types accepted by the empty-array case. -/
def isPrimElem : TsTypeNode → Bool
  | .strT _ _ => true
  | .numT _ _ => true
  | .boolT _ _ => true
  | _ => false

/-- Value of an estree Literal as the rule can observe it. -/
inductive LitVal where
  | boolv (b : Bool)
  | strv (s : String)
  | numv
  | nullv
  | otherv
deriving DecidableEq, Repr

/-- A call argument as the rule can observe it. -/
inductive Arg where
  | litA (value : LitVal) (rng : Rng)
  | identA (name : String) (rng : Rng)
  | arrayA (elemCount : Nat) (rng : Rng)
  | otherA (rng : Rng)
deriving DecidableEq, Repr

structure TypeArgs where
  params : List TsTypeNode
  rng : Rng

structure UseStateCall where
  calleeName : Option String
  typeArgs : Option TypeArgs
  args : List Arg
  tbEnd : Nat
  openStart : Nat
  afterArgEnd : Nat
  rng : Rng

/-- Case 1 of the rule: literal initializer matching the written type
text, or an empty array literal with a primitive element type. -/
def isRedundantSimple (t : TsTypeNode) (a : Arg) : Bool :=
  (t.text == "boolean" && (match a with | .litA (.boolv _) _ => true | _ => false)) ||
  (t.text == "string" && (match a with | .litA (.strv _) _ => true | _ => false)) ||
  (t.text == "number" && (match a with | .litA .numv _ => true | _ => false)) ||
  (t.text == "null" && (match a with | .litA .nullv _ => true | _ => false)) ||
  (t.text == "undefined" && (match a with | .identA n _ => n == "undefined" | _ => false)) ||
  (match t, a with
   | .arrT elem _ _, .arrayA 0 _ => isPrimElem elem
   | _, _ => false)

/-- The fix of cases 1 and 4: remove the whole type-argument clause,
from the end of the token before it to the start of the token after. -/
def removeTypeArgsFix (c : UseStateCall) : List Edit :=
  [⟨⟨c.tbEnd, c.openStart⟩, ""⟩]

/-- The fix of cases 2 and 3: replace the type parameter with the base
type text and, when the call has exactly one argument, replace from the
open parenthesis to the end of the token after the argument by "()". -/
def narrowUnionFix (c : UseStateCall) (typeParam baseType : TsTypeNode) : List Edit :=
  ⟨typeParam.rng, baseType.text⟩ ::
    (if c.args.length == 1 then [⟨⟨c.openStart, c.afterArgEnd⟩, "()"⟩] else [])

/-- Case 2: a two-member union with the undefined keyword and the
identifier undefined as initializer. -/
def case2Check (c : UseStateCall) (typeParam : TsTypeNode) : List Diagnostic :=
  match typeParam, c.args.head? with
  | .unionT members text rng, some (.identA n _) =>
    if n == "undefined" then
      if members.any isUndefKw && members.length == 2 then
        match members.find? (fun t => !isUndefKw t) with
        | some baseType =>
          [{ messageId := "redundantUndefinedUnion",
             data := [("baseType", baseType.text)],
             anchor := c.rng,
             fix := some (narrowUnionFix c (.unionT members text rng) baseType) }]
        | none => []
      else []
    else []
  | _, _ => []

/-- Case 3: a two-member union with the null keyword and the literal
null as initializer. -/
def case3Check (c : UseStateCall) (typeParam : TsTypeNode) : List Diagnostic :=
  match typeParam, c.args.head? with
  | .unionT members text rng, some (.litA .nullv _) =>
    if members.any isNullKw && members.length == 2 then
      match members.find? (fun t => !isNullKw t) with
      | some baseType =>
        [{ messageId := "preferUndefinedOverNull",
           data := [("baseType", baseType.text)],
           anchor := c.rng,
           fix := some (narrowUnionFix c (.unionT members text rng) baseType) }]
      | none => []
    else []
  | _, _ => []

/-- Case 4: a bare undefined keyword type with no argument. -/
def case4Check (c : UseStateCall) (typeParam : TsTypeNode) (ta : TypeArgs) : List Diagnostic :=
  match typeParam with
  | .undefT _ _ =>
    if c.args.length == 0 then
      [{ messageId := "redundantSimpleType",
         data := [("type", "undefined")],
         anchor := ta.rng,
         fix := some (removeTypeArgsFix c) }]
    else []
  | _ => []

/-- The CallExpression handler of the rule. -/
def checkUseState (c : UseStateCall) : List Diagnostic :=
  if c.calleeName != some "useState" then []
  else
    match c.typeArgs with
    | none => []
    | some ta =>
      match ta.params.head? with
      | none => []
      | some typeParam =>
        let fired : Bool :=
          match c.args.head? with
          | some a => isRedundantSimple typeParam a
          | none => false
        if fired then
          [{ messageId := "redundantSimpleType",
             data := [("type", typeParam.text)],
             anchor := ta.rng,
             fix := some (removeTypeArgsFix c) }]
        else
          case2Check c typeParam ++ case3Check c typeParam ++ case4Check c typeParam ta

end UseState

section
open UseState

/-- Claim C5: for the call useState of a two-member union of number and
the undefined keyword, initialized with the identifier undefined, the
rule reports one diagnostic whose fix replaces the type argument with
the remaining union member and the argument list with parentheses,
producing the zero-argument call on the fixed text. -/
theorem C5_useState_union_undefined :
    checkUseState
      { calleeName := some "useState",
        typeArgs := some
          { params := [TsTypeNode.unionT
              [TsTypeNode.numT "number" ⟨9, 15⟩, TsTypeNode.undefT "undefined" ⟨18, 27⟩]
              "number | undefined" ⟨9, 27⟩],
            rng := ⟨8, 28⟩ },
        args := [Arg.identA "undefined" ⟨29, 38⟩],
        tbEnd := 8, openStart := 28, afterArgEnd := 39, rng := ⟨0, 39⟩ }
      = [{ messageId := "redundantUndefinedUnion",
           data := [("baseType", "number")],
           anchor := ⟨0, 39⟩,
           fix := some [⟨⟨9, 27⟩, "number"⟩, ⟨⟨28, 39⟩, "()"⟩] }] ∧
    applyEdits "useState<number | undefined>(undefined)".data
        [⟨⟨9, 27⟩, "number"⟩, ⟨⟨28, 39⟩, "()"⟩]
      = "useState<number>()".data := by
  constructor
  · rfl
  · rfl

end

namespace RedirectRule

/-!
Embedding of the next-no-redirect-only-pages rule.  The rule is gated on
file names ending in "/page.tsx"; during the traversal it accumulates
whether a redirect call occurred (keeping the last such call's node and
extracted destination), and whether every Page-suffixed function-valued
const had an only-redirect body; at Program:exit it derives the route
from the file name with the regex match src/app(.*)/page.tsx followed by
two global replacements, and reports two diagnostics without fixes.  The
regex helpers are written with an explicit fuel argument equal to the
input length, which suffices because every step consumes at least one
character; the dot in the regex not matching newlines is immaterial for
file paths, which are assumed newline free.
-/

/-- An interpolated expression of a template literal as the rule can
observe it: a bare identifier, an await (recording whether its argument
is a call expression), or anything else. -/
inductive TplExpr where
  | identE (name : String)
  | awaitE (argIsCall : Bool)
  | otherE
deriving DecidableEq, Repr

/-- First argument of a redirect call. -/
inductive RdArg where
  | strLit (value : String)
  | tpl (quasis : List String) (exprs : List TplExpr)
  | otherArg
deriving DecidableEq, Repr

structure RdCall where
  calleeIdent : Option String
  args : List RdArg
  rng : Rng
deriving DecidableEq, Repr

/-- A statement of a block body as isOnlyRedirect inspects it. -/
inductive RdStmt where
  | emptyS
  | exprCallS (calleeIdent : Option String)
  | exprOtherS
  | varS
  | returnS
  | otherS
deriving DecidableEq, Repr

/-- A function body: a block, a direct call expression (arrow shorthand),
or any other expression body. -/
inductive RdBody where
  | blockB (stmts : List RdStmt)
  | callB (calleeIdent : Option String)
  | otherB
deriving DecidableEq, Repr

inductive RdInit where
  | arrowI (body : RdBody)
  | funcI (body : RdBody)
  | otherI
deriving DecidableEq, Repr

inductive RdEvent where
  | varDeclarator (idName : Option String) (init : Option RdInit)
  | callExpr (c : RdCall)
deriving DecidableEq, Repr

def isEmptyStmt : RdStmt → Bool
  | .emptyS => true
  | _ => false

def stmtAllowed : RdStmt → Bool
  | .exprCallS (some n) => n == "redirect"
  | .exprCallS none => false
  | .exprOtherS => false
  | .varS => true
  | .returnS => true
  | .emptyS => true
  | .otherS => false

/-- `isOnlyRedirect` of the rule. -/
def isOnlyRedirect : Option RdBody → Bool
  | none => false
  | some (.blockB stmts) =>
    let statements := stmts.filter (fun s => !isEmptyStmt s)
    if statements.length == 0 then false
    else if decide (statements.length > 2) then false
    else statements.all stmtAllowed
  | some (.callB (some n)) => n == "redirect"
  | some (.callB none) => false
  | some .otherB => false

/-- The indexed loop over quasis and expressions of a template literal. -/
def extractTpl : List String → List TplExpr → Option String
  | [], _ => some ""
  | q :: qs, [] => (extractTpl qs []).map (fun r => q ++ r)
  | q :: qs, e :: es =>
    match e with
    | .identE n => (extractTpl qs es).map (fun r => q ++ ":" ++ n ++ r)
    | .awaitE true => (extractTpl qs es).map (fun r => q ++ ":id" ++ r)
    | _ => none

/-- `extractDestination` of the rule. -/
def extractDestination (c : RdCall) : Option String :=
  match c.args.head? with
  | none => none
  | some (.strLit v) => some v
  | some (.tpl qs es) =>
    if es.length == 0 && qs.length == 1 then
      match qs.head? with
      | some q => some q
      | none => none
    else extractTpl qs es
  | some .otherArg => none

structure RdState where
  hasRedirectCall : Bool
  redirectDestination : Option String
  isSimpleRedirect : Bool
  redirectNode : Option Rng
deriving DecidableEq, Repr

/-- One node-visit callback of the rule. -/
def stepEvent (st : RdState) : RdEvent → RdState
  | .varDeclarator idName init =>
    match idName, init with
    | some n, some i =>
      if jsEndsWith n "Page" then
        match i with
        | .arrowI body =>
          if !isOnlyRedirect (some body) then { st with isSimpleRedirect := false } else st
        | .funcI body =>
          if !isOnlyRedirect (some body) then { st with isSimpleRedirect := false } else st
        | .otherI => st
      else st
    | _, _ => st
  | .callExpr c =>
    if c.calleeIdent == some "redirect" then
      { st with
        hasRedirectCall := true,
        redirectNode := some c.rng,
        redirectDestination := extractDestination c }
    else st

/-- Start of the leftmost full match of src/app(.*)/page.tsx: the first
occurrence of "src/app" leaving at least the nine characters of the
anchored tail after it. -/
def findRegexStart (cs : List Char) : Option Nat :=
  (List.range cs.length).find? fun i =>
    "src/app".data.isPrefixOf (cs.drop i) && decide (i + 16 ≤ cs.length)

/-- Global replacement of the pattern /([^)]+) by the empty string. -/
def removeGroups : Nat → List Char → List Char
  | 0, cs => cs
  | fuel + 1, cs =>
    match cs with
    | '/' :: '(' :: rest =>
      let inner := rest.takeWhile (fun c => c != ')')
      let rest2 := rest.dropWhile (fun c => c != ')')
      if decide (inner.length > 0) && decide (rest2.length > 0) then
        removeGroups fuel rest2.tail
      else '/' :: removeGroups fuel ('(' :: rest)
    | c :: rest => c :: removeGroups fuel rest
    | [] => []

/-- Global replacement of the pattern [x] by :x. -/
def replaceBrackets : Nat → List Char → List Char
  | 0, cs => cs
  | fuel + 1, cs =>
    match cs with
    | '[' :: rest =>
      let inner := rest.takeWhile (fun c => c != ']')
      let rest2 := rest.dropWhile (fun c => c != ']')
      if decide (inner.length > 0) && decide (rest2.length > 0) then
        ':' :: inner ++ replaceBrackets fuel rest2.tail
      else '[' :: replaceBrackets fuel rest
    | c :: rest => c :: replaceBrackets fuel rest
    | [] => []

/-- `getSourcePath` of the rule. -/
def getSourcePath (filename : String) : Option String :=
  let cs := filename.data
  if !jsEndsWith filename "/page.tsx" then none
  else
    match findRegexStart cs with
    | none => none
    | some i =>
      let group1 := (cs.drop (i + 7)).take (cs.length - 9 - (i + 7))
      let path1 := removeGroups group1.length group1
      if path1.isEmpty then some "/"
      else some (String.mk (replaceBrackets path1.length path1))

/-- The Program:exit callback of the rule, applied to the final state. -/
def exitReport (filename : String) (st : RdState) : List Diagnostic :=
  if st.hasRedirectCall && st.isSimpleRedirect then
      match st.redirectDestination, st.redirectNode with
      | some dest, some node =>
        if dest != "" then
          match getSourcePath filename with
          | some sourcePath =>
            if sourcePath != "" then
              [{ messageId := "useConfigRedirect",
                 data := [("source", sourcePath), ("destination", dest), ("permanent", "false")],
                 anchor := node, fix := none },
               { messageId := "showExample",
                 data := [("source", sourcePath), ("destination", dest), ("permanent", "false")],
                 anchor := node, fix := none }]
            else []
          | none => []
        else []
      | _, _ => []
    else []

/-- The whole rule on one file: the create-time gate on the file name,
the traversal fold, then the exit report. -/
def runRedirect (filename : String) (events : List RdEvent) : List Diagnostic :=
  if !jsEndsWith filename "/page.tsx" then []
  else exitReport filename (events.foldl stepEvent ⟨false, none, true, none⟩)

/-- A template expression the loop accepts without aborting. -/
def isSimpleTplExpr : TplExpr → Bool
  | .identE _ => true
  | .awaitE b => b
  | .otherE => false

theorem extractTpl_none :
    ∀ (es : List TplExpr) (qs : List String),
      qs.length = es.length + 1 →
      (∃ e ∈ es, isSimpleTplExpr e = false) →
      extractTpl qs es = none := by
  intro es
  induction es with
  | nil => rintro qs _ ⟨e, he, _⟩; simp at he
  | cons e es ih =>
    rintro qs hlen ⟨bad, hbad, hbadval⟩
    match qs with
    | [] => simp at hlen
    | q :: qs =>
      rcases List.mem_cons.mp hbad with heq | hmem
    
      · subst heq
        cases bad with
        | identE n => simp [isSimpleTplExpr] at hbadval
        | awaitE b =>
          cases b with
          | true => simp [isSimpleTplExpr] at hbadval
          | false => rfl
        | otherE => rfl
      · have hrec : extractTpl qs es = none := by
          apply ih qs (by simpa using hlen) ⟨bad, hmem, hbadval⟩
        cases e with
        | identE n => rw [extractTpl, hrec]; rfl
        | awaitE b =>
          cases b with
          | true => rw [extractTpl, hrec]; rfl
          | false => rfl
        | otherE => rfl

/-- A call whose first argument is a template literal containing an
interpolated expression that is neither a bare identifier nor an await
of a call expression. -/
def BadTemplateCall (c : RdCall) : Prop :=
  ∃ qs es, c.args.head? = some (RdArg.tpl qs es) ∧ qs.length = es.length + 1 ∧
    ∃ e ∈ es, isSimpleTplExpr e = false

theorem extractDestination_none_of_bad (c : RdCall) (h : BadTemplateCall c) :
    extractDestination c = none := by
  rcases h with ⟨qs, es, hhead, hlen, hbad⟩
  have hne : es ≠ [] := by
    rcases hbad with ⟨e, he, _⟩
    intro hcontra
    rw [hcontra] at he
    simp at he
  have hlen0 : (es.length == 0) = false := by
    cases es with
    | nil => exact absurd rfl hne
    | cons x xs => rfl
  simp only [extractDestination, hhead, hlen0, Bool.false_and, Bool.false_eq_true, if_false]
  exact extractTpl_none es qs hlen hbad

theorem stepEvent_dest_none (st : RdState) (ev : RdEvent)
    (hst : st.redirectDestination = none)
    (hev : ∀ c, ev = RdEvent.callExpr c → c.calleeIdent = some "redirect" →
      extractDestination c = none) :
    (stepEvent st ev).redirectDestination = none := by
  cases ev with
  | varDeclarator idName init =>
    cases idName with
    | none => simpa [stepEvent] using hst
    | some n =>
      cases init with
      | none => simpa [stepEvent] using hst
      | some i =>
        dsimp [stepEvent]
        split
        · split
          · split <;> exact hst
          · split <;> exact hst
          · exact hst
        · exact hst
  | callExpr c =>
    dsimp [stepEvent]
    by_cases hcallee : c.calleeIdent = some "redirect"
    · have h := hev c rfl hcallee
      simp [hcallee, h]
    · have hne : (c.calleeIdent == some "redirect") = false := by
        simpa using hcallee
      simp [hne, hst]

theorem foldl_dest_none (events : List RdEvent)
    (hred : ∀ c : RdCall, RdEvent.callExpr c ∈ events →
      c.calleeIdent = some "redirect" → extractDestination c = none) :
    ∀ st : RdState, st.redirectDestination = none →
      (events.foldl stepEvent st).redirectDestination = none := by
  induction events with
  | nil => intro st hst; exact hst
  | cons ev events ih =>
    intro st hst
    rw [List.foldl_cons]
    apply ih
    · intro c hc hcallee
      exact hred c (List.mem_cons_of_mem ev hc) hcallee
    · apply stepEvent_dest_none st ev hst
      intro c hev hcallee
      exact hred c (hev ▸ List.mem_cons_self ev events) hcallee

end RedirectRule

namespace RedirectRule

theorem exitReport_dest_none (filename : String) (st : RdState)
    (hdest : st.redirectDestination = none) :
    exitReport filename st = [] := by
  rw [exitReport, hdest]
  split <;> rfl

end RedirectRule

section
open RedirectRule

/-- Claim C8: if every redirect call of a page file has as first
argument a template literal containing an interpolated expression that
is neither a bare identifier nor an await of a call expression, the
destination is unextractable and the rule emits no diagnostic at all for
that file. -/
theorem C8_unextractable_suppresses_all (filename : String) (events : List RdEvent)
    (hred : ∀ c : RdCall, RdEvent.callExpr c ∈ events →
      c.calleeIdent = some "redirect" → BadTemplateCall c) :
    runRedirect filename events = [] := by
  rw [runRedirect]
  split
  · rfl
  · exact exitReport_dest_none filename _
      (foldl_dest_none events
        (fun c hc hcallee => extractDestination_none_of_bad c (hred c hc hcallee))
        ⟨false, none, true, none⟩ rfl)

/-- Witness for C8: a page file whose sole redirect call interpolates a
member expression into the template. -/
theorem C8_unextractable_suppresses_all_witness :
    runRedirect "src/app/x/page.tsx"
      [RdEvent.callExpr ⟨some "redirect", [RdArg.tpl ["/a/", ""] [TplExpr.otherE]], ⟨0, 30⟩⟩]
      = [] := by
  apply C8_unextractable_suppresses_all
  intro c hc hcallee
  simp only [List.mem_singleton] at hc
  cases hc
  exact ⟨["/a/", ""], [TplExpr.otherE], rfl, rfl, TplExpr.otherE, by simp, rfl⟩

/-- Claim C4: for the page file src/app/(marketing)/old-path/page.tsx
whose sole page component body consists only of the call redirect to
/login, the rule emits at end of traversal one informational diagnostic
plus one example-payload diagnostic, both carrying destination /login
and derived route /old-path with the route-group segment elided, and
neither diagnostic carries a fix. -/
theorem C4_redirect_only_scenario :
    runRedirect "src/app/(marketing)/old-path/page.tsx"
      [RdEvent.varDeclarator (some "OldPathPage")
        (some (RdInit.arrowI (RdBody.blockB [RdStmt.exprCallS (some "redirect")]))),
       RdEvent.callExpr ⟨some "redirect", [RdArg.strLit "/login"], ⟨74, 92⟩⟩]
      = [{ messageId := "useConfigRedirect",
           data := [("source", "/old-path"), ("destination", "/login"), ("permanent", "false")],
           anchor := ⟨74, 92⟩, fix := none },
         { messageId := "showExample",
           data := [("source", "/old-path"), ("destination", "/login"), ("permanent", "false")],
           anchor := ⟨74, 92⟩, fix := none }] := by
  rfl

end

namespace PagePattern

/-!
Embedding of the nextjs-page-pattern rule (the page-component pattern
enforcer).  The rule is gated on file names ending in "/page.tsx".  Its
handlers fire in document order on ImportDeclaration,
ExportDefaultDeclaration, ExportNamedDeclaration and VariableDeclaration
nodes, reading and mutating three pieces of per-file state
(hasNextPageImport, defaultExport, exportedComponents); its fixes also
consult the program body (sourceCode.ast.body) for the first import
statement and the last top-level statement.  A file is therefore
modelled as the list of visit events in document order plus the list of
top-level statement kinds and ranges.  Function text reconstruction
(parameter texts, body text, async flag) is carried as data extracted by
sourceCode.getText in the source.
-/

/-- A function parameter: its full source text and the text of its type
annotation when present. -/
structure Param where
  text : String
  tyAnnText : Option String
deriving DecidableEq, Repr

/-- `part.split("-").map(p => p.charAt(0).toUpperCase() + p.slice(1)).join("")`
for one path segment.  Character case mapping is ASCII here, matching
the JavaScript behaviour on the identifier-like path segments the rule
sees. -/
def capSeg (s : String) : String :=
  match s.data with
  | [] => ""
  | c :: rest => String.mk (c.toUpper :: rest)

def titleCase (part : String) : String :=
  String.join ((jsSplit part "-").map capSeg)

/-- The descending for-loop over pathParts from index length-3 to 0. -/
def fallbackScan (pathParts : List String) : String :=
  match (pathParts.take (pathParts.length - 2)).reverse.find? (fun part =>
      !(part == "") && !jsStartsWith part "(" && !(part == "app") && !(part == "src")) with
  | some part => titleCase part ++ "Page"
  | none => "DefaultPage"

/-- `generatePageName` of the rule.  `pathParts[pathParts.length - 2]`
is undefined in JavaScript when fewer than two segments exist. -/
def generatePageName (filename : String) : String :=
  let pathParts := jsSplit filename "/"
  let parentDir : Option String :=
    if pathParts.length < 2 then none else pathParts[pathParts.length - 2]?
  match parentDir with
  | none => fallbackScan pathParts
  | some p =>
    if p == "" || p == "app" || jsStartsWith p "(" then fallbackScan pathParts
    else titleCase p ++ "Page"

inductive StmtKind where
  | importK
  | exportDefaultK
  | exportNamedK
  | varK
  | otherK
deriving DecidableEq, Repr

/-- A top-level statement of the program body: kind and range. -/
structure BodyStmt where
  kind : StmtKind
  rng : Rng
deriving DecidableEq, Repr

/-- Data of a FunctionDeclaration under an export default. -/
structure FuncData where
  idName : Option String
  params : List Param
  bodyText : String
  isAsync : Bool
deriving DecidableEq, Repr

/-- The declaration under an ExportDefaultDeclaration. -/
inductive EDDecl where
  | funcDecl (f : FuncData)
  | identDecl (name : String) (rng : Rng)
  | otherDecl
deriving DecidableEq, Repr

structure EDEvent where
  decl : EDDecl
  rng : Rng
deriving DecidableEq, Repr

/-- The first declarator of an exported variable declaration. -/
structure ENDeclarator where
  idName : Option String
  hasInit : Bool
  initIsFunction : Bool
deriving DecidableEq, Repr

structure ENVar where
  firstDecl : Option ENDeclarator
  declText : String
deriving DecidableEq, Repr

structure ENEvent where
  varDecl : Option ENVar
  rng : Rng
deriving DecidableEq, Repr

inductive BindKind where
  | constK
  | letK
  | varrK
deriving DecidableEq, Repr

/-- The initializer of a declarator, as the const checks inspect it. -/
inductive InitKind where
  | arrowInit (params : List Param)
  | funcExprInit (params : List Param) (bodyText : String) (isAsync : Bool)
  | otherInit
deriving DecidableEq, Repr

structure InitData where
  kind : InitKind
  rng : Rng
deriving DecidableEq, Repr

structure Declarator where
  idName : Option String
  idRng : Rng
  tyAnn : Option (Rng × String)
  init : Option InitData
deriving DecidableEq, Repr

structure VDEvent where
  bind : BindKind
  parentIsExportNamed : Bool
  declarators : List Declarator
  text : String
  rng : Rng
deriving DecidableEq, Repr

structure ImportEvent where
  source : String
  specNames : List String
deriving DecidableEq, Repr

inductive PEvent where
  | importEv (e : ImportEvent)
  | exportDefaultEv (e : EDEvent)
  | exportNamedEv (e : ENEvent)
  | varDeclEv (e : VDEvent)
deriving DecidableEq, Repr

structure PState where
  hasNextPageImport : Bool
  defaultExport : Option EDEvent
  exportedComponents : List String
deriving DecidableEq, Repr

/-- The NextPage import injection: before the first import statement of
the body, or at the start of the file when no import exists. -/
def importInjection (body : List BodyStmt) : List Edit :=
  match body.find? (fun s => s.kind == StmtKind.importK) with
  | some fi => [⟨⟨fi.rng.start, fi.rng.start⟩, "import type \x7b NextPage \x7d from \"next\";\n"⟩]
  | none => [⟨⟨0, 0⟩, "import type \x7b NextPage \x7d from \"next\";\n\n"⟩]

def maybeImportInjection (hasImport : Bool) (body : List BodyStmt) : List Edit :=
  if hasImport then [] else importInjection body

/-- Props type from the first parameter: the annotation text with a
leading colon stripped and trimmed, or empty. -/
def propsTypeOf (params : List Param) : String :=
  match params.head? with
  | some p =>
    match p.tyAnnText with
    | some t => if jsStartsWith t ":" then jsTrim (jsDrop t 1) else t
    | none => ""
  | none => ""

/-- The rebuilt page component of the noExportDefaultFunction fix. -/
def buildComponent (suggestedName : String) (f : FuncData) : String :=
  let params := String.intercalate ", " (f.params.map (fun p => p.text))
  let propsType := propsTypeOf f.params
  "const " ++ suggestedName ++ ": NextPage" ++
    (if propsType != "" then "<" ++ propsType ++ ">" else "") ++
    " = " ++ (if f.isAsync then "async " else "") ++
    "(" ++ params ++ ") => " ++ f.bodyText ++
    ";\n\nexport default " ++ suggestedName ++ ";"

/-- Name selection of the noExportDefaultFunction fix. -/
def suggestedNameOf (filename componentName : String) : String :=
  if componentName == "Page" || !jsEndsWith componentName "Page" then
    generatePageName filename
  else componentName

/-- The ExportDefaultDeclaration handler.  The state records the node
first; a FunctionDeclaration child is then reported. -/
def handleExportDefault (filename : String) (body : List BodyStmt)
    (st : PState) (e : EDEvent) : PState × List Diagnostic :=
  let st2 := { st with defaultExport := some e }
  match e.decl with
  | .funcDecl f =>
    let componentName := (f.idName).getD "Page"
    (st2,
      [{ messageId := "noExportDefaultFunction", data := [], anchor := e.rng,
         fix := some (maybeImportInjection st2.hasNextPageImport body ++
           [⟨e.rng, buildComponent (suggestedNameOf filename componentName) f⟩]) }])
  | _ => (st2, [])

/-- The ExportNamedDeclaration handler. -/
def handleExportNamed (body : List BodyStmt)
    (st : PState) (e : ENEvent) : PState × List Diagnostic :=
  match e.varDecl with
  | some v =>
    match v.firstDecl with
    | some d =>
      match d.idName with
      | some componentName =>
        if d.hasInit && jsEndsWith componentName "Page" && d.initIsFunction then
          ({ st with exportedComponents := st.exportedComponents ++ [componentName] },
            [{ messageId := "noDirectExport", data := [], anchor := e.rng,
               fix := some ([⟨e.rng, v.declText⟩] ++
                 (match st.defaultExport with
                  | some _ => []
                  | none =>
                    match body.getLast? with
                    | some lastNode =>
                      [⟨⟨lastNode.rng.stop, lastNode.rng.stop⟩,
                        "\n\nexport default " ++ componentName ++ ";"⟩]
                    | none => [])) }])
        else (st, [])
      | none => (st, [])
    | none => (st, [])
  | none => (st, [])

/-- `typeAnnotation` presence and NextPage membership test. -/
def tyAnnIncludesNextPage : Option (Rng × String) → Bool
  | none => false
  | some (_, t) => jsIncludes t "NextPage"

/-- Props type for the missingNextPageType fix: only read off an arrow
initializer. -/
def constPropsType (d : Declarator) : String :=
  match d.init with
  | some i =>
    match i.kind with
    | .arrowInit params => propsTypeOf params
    | _ => ""
  | none => ""

def buildTyAnn (propsType : String) : String :=
  if propsType != "" then ": NextPage<" ++ propsType ++ ">" else ": NextPage"

/-- The three checks of the const branch for one declarator. -/
def checkConstDeclarator (filename : String) (body : List BodyStmt)
    (st : PState) (d : Declarator) : List Diagnostic :=
  match d.idName, d.init with
  | some componentName, some init =>
    if jsEndsWith componentName "Page" then
      (if componentName == "Page" then
        [{ messageId := "badComponentName", data := [("name", componentName)],
           anchor := d.idRng,
           fix := some ([⟨d.idRng, generatePageName filename⟩] ++
             (match st.defaultExport with
              | some ed =>
                match ed.decl with
                | .identDecl n r =>
                  if n == componentName then [⟨r, generatePageName filename⟩] else []
                | _ => []
              | none => [])) }]
      else []) ++
      (if !tyAnnIncludesNextPage d.tyAnn then
        [{ messageId := "missingNextPageType", data := [], anchor := d.idRng,
           fix := some (maybeImportInjection st.hasNextPageImport body ++
             [match d.tyAnn with
              | some (r, _) => ⟨r, buildTyAnn (constPropsType d)⟩
              | none => ⟨⟨d.idRng.stop, d.idRng.stop⟩, buildTyAnn (constPropsType d)⟩]) }]
      else []) ++
      (match init.kind with
       | .arrowInit _ => []
       | .funcExprInit params bodyText isAsync =>
         [{ messageId := "notArrowFunction", data := [], anchor := init.rng,
            fix := some [⟨init.rng,
              (if isAsync then "async " else "") ++
                "(" ++ String.intercalate ", " (params.map (fun p => p.text)) ++
                ") => " ++ bodyText⟩] }]
       | .otherInit =>
         [{ messageId := "notArrowFunction", data := [], anchor := init.rng,
            fix := none }])
    else []
  | _, _ => []

/-- `text.replace(/^(let|var)/, "const")`. -/
def replaceLetVar (text : String) : String :=
  if jsStartsWith text "let" then "const" ++ jsDrop text 3
  else if jsStartsWith text "var" then "const" ++ jsDrop text 3
  else text

/-- The let and var branch for one declarator. -/
def checkLetVarDeclarator (e : VDEvent) (d : Declarator) : List Diagnostic :=
  match d.idName, d.init with
  | some componentName, some _ =>
    if jsEndsWith componentName "Page" then
      [{ messageId := "notConst", data := [], anchor := e.rng,
         fix := some [⟨e.rng, replaceLetVar e.text⟩] }]
    else []
  | _, _ => []

/-- The VariableDeclaration handler. -/
def handleVarDecl (filename : String) (body : List BodyStmt)
    (st : PState) (e : VDEvent) : List Diagnostic :=
  (if e.bind == BindKind.constK && !e.parentIsExportNamed then
    e.declarators.flatMap (checkConstDeclarator filename body st)
  else []) ++
  (if (e.bind == BindKind.letK || e.bind == BindKind.varrK) && !e.parentIsExportNamed then
    e.declarators.flatMap (checkLetVarDeclarator e)
  else [])

/-- One traversal step: dispatch the event to its handler, threading the
state and accumulating diagnostics in report order. -/
def stepP (filename : String) (body : List BodyStmt) :
    PState × List Diagnostic → PEvent → PState × List Diagnostic
  | (st, acc), .importEv ie =>
    (if ie.source == "next" && ie.specNames.contains "NextPage" then
      { st with hasNextPageImport := true }
    else st, acc)
  | (st, acc), .exportDefaultEv e =>
    let r := handleExportDefault filename body st e
    (r.1, acc ++ r.2)
  | (st, acc), .exportNamedEv e =>
    let r := handleExportNamed body st e
    (r.1, acc ++ r.2)
  | (st, acc), .varDeclEv e => (st, acc ++ handleVarDecl filename body st e)

/-- The whole rule on one file: create-time gate, then the traversal. -/
def runPagePattern (filename : String) (body : List BodyStmt)
    (events : List PEvent) : List Diagnostic :=
  if !jsEndsWith filename "/page.tsx" then []
  else (events.foldl (stepP filename body) (⟨false, none, []⟩, [])).2

end PagePattern

namespace PagePattern

theorem generatePageName_blog (filename : String) (parts : List String)
    (h : jsSplit filename "/" = parts ++ ["blog-posts", "page.tsx"]) :
    generatePageName filename = "BlogPostsPage" := by
  have hlen : (parts ++ ["blog-posts", "page.tsx"]).length = parts.length + 2 := by
    simp
  have hget : (parts ++ ["blog-posts", "page.tsx"])[(parts ++ ["blog-posts", "page.tsx"]).length - 2]?
      = some "blog-posts" := by
    rw [hlen, Nat.add_sub_cancel, List.getElem?_append_right (Nat.le_refl _), Nat.sub_self]
    rfl
  have hnotlt : ¬ ((parts ++ ["blog-posts", "page.tsx"]).length < 2) := by
    rw [hlen]
    omega
  rw [generatePageName, h]
  simp only [hnotlt, if_false, hget]
  have hcond : ("blog-posts" == "" || "blog-posts" == "app"
      || jsStartsWith "blog-posts" "(") = false := by decide
  rw [hcond]
  simp only [Bool.false_eq_true, if_false]
  decide

end PagePattern

section
open PagePattern

/-- Claim C3: in a page file under a directory named blog-posts, the
declaration export default function Home returning an element produces
one diagnostic whose fix replaces the whole declaration by a constant
named BlogPostsPage (directory name split on dashes, title-cased,
joined, suffixed with Page), typed NextPage, initialized to an arrow
function preserving the parameters, body and async-ness, followed by a
separate export default statement, and injects the NextPage type import
since none is present. -/
theorem C3_export_default_function_fix (filename : String) (parts : List String)
    (h1 : jsEndsWith filename "/page.tsx" = true)
    (h2 : jsSplit filename "/" = parts ++ ["blog-posts", "page.tsx"]) :
    runPagePattern filename [⟨StmtKind.exportDefaultK, ⟨0, 48⟩⟩]
      [PEvent.exportDefaultEv
        ⟨EDDecl.funcDecl ⟨some "Home", [], "\x7b return <x/>; \x7d", false⟩, ⟨0, 48⟩⟩]
      = [{ messageId := "noExportDefaultFunction", data := [], anchor := ⟨0, 48⟩,
           fix := some
             [⟨⟨0, 0⟩, "import type \x7b NextPage \x7d from \"next\";\n\n"⟩,
              ⟨⟨0, 48⟩, "const BlogPostsPage: NextPage = () => \x7b return <x/>; \x7d;\n\nexport default BlogPostsPage;"⟩] }] := by
  have hname := generatePageName_blog filename parts h2
  have hsug : suggestedNameOf filename "Home" = "BlogPostsPage" := by
    have hcond : ("Home" == "Page" || !jsEndsWith "Home" "Page") = true := by decide
    rw [suggestedNameOf, hcond]
    simpa using hname
  rw [runPagePattern, h1]
  simp only [Bool.not_true, Bool.false_eq_true, if_false]
  simp only [List.foldl_cons, List.foldl_nil, stepP, handleExportDefault, Option.getD_some]
  rw [hsug]
  decide

/-- Witness for C3 at the concrete path src/app/blog-posts/page.tsx. -/
theorem C3_export_default_function_fix_witness :
    runPagePattern "src/app/blog-posts/page.tsx" [⟨StmtKind.exportDefaultK, ⟨0, 48⟩⟩]
      [PEvent.exportDefaultEv
        ⟨EDDecl.funcDecl ⟨some "Home", [], "\x7b return <x/>; \x7d", false⟩, ⟨0, 48⟩⟩]
      = [{ messageId := "noExportDefaultFunction", data := [], anchor := ⟨0, 48⟩,
           fix := some
             [⟨⟨0, 0⟩, "import type \x7b NextPage \x7d from \"next\";\n\n"⟩,
              ⟨⟨0, 48⟩, "const BlogPostsPage: NextPage = () => \x7b return <x/>; \x7d;\n\nexport default BlogPostsPage;"⟩] }] :=
  C3_export_default_function_fix "src/app/blog-posts/page.tsx" ["src", "app"]
    (by decide) (by decide)

end

namespace Lucide

/-- The reparse of the lucide-icon-suffix fix applied to an import
declaration: every violating named specifier's imported name gains the
Icon suffix, and for an unaliased specifier the local binding (the same
identifier node) is renamed with it.  Reference rewrites do not appear
in the reparsed import declaration. -/
def fixSpecAst : Specifier → Specifier
  | .named imported importedRng localName specRng =>
    if jsEndsWith imported "Icon" then .named imported importedRng localName specRng
    else
      .named (imported ++ "Icon") importedRng
        (if imported == localName then imported ++ "Icon" else localName) specRng
  | .other => .other

def fixImportAst (decl : ImportDecl) : ImportDecl :=
  { decl with specifiers := decl.specifiers.map fixSpecAst }

end Lucide

theorem jsEndsWith_append (s t : String) : jsEndsWith (s ++ t) t = true := by
  rw [jsEndsWith, String.data_append]
  exact List.isSuffixOf_iff_suffix.mpr (List.suffix_append s.data t.data)

namespace Lucide

theorem checkSpec_fixSpecAst (decl : ImportDecl) (s : Specifier) :
    checkSpec decl (fixSpecAst s) = [] := by
  cases s with
  | named imported importedRng localName specRng =>
    rw [fixSpecAst]
    by_cases h : jsEndsWith imported "Icon" = true
    · simp only [h, if_true]
      simp [checkSpec, h]
    · simp only [h, if_false]
      simp [checkSpec, jsEndsWith_append imported "Icon"]
  | other => rfl

theorem checkLucideImport_fixImportAst (decl : ImportDecl) :
    checkLucideImport (fixImportAst decl) = [] := by
  rw [checkLucideImport, fixImportAst]
  split
  · rw [List.flatMap_map]
    apply List.flatMap_eq_nil_iff.mpr
    intro s _
    exact checkSpec_fixSpecAst _ s
  · rfl

end Lucide

namespace DirectImports

/-- Re-running supabase-no-direct-imports on an import whose source the
fix rewrote to the wrapper module reports nothing. -/
theorem checkImportDecl_fixed (filename : String) (node : ImportDecl) :
    checkImportDecl filename { node with source := replacementClient } = [] := by
  have h1 : (replacementClient == "@supabase/supabase-js") = false := by decide
  have h2 : (replacementClient == "@supabase/ssr") = false := by decide
  simp [checkImportDecl, h1, h2]

end DirectImports

namespace UseState

theorem checkUseState_no_typeArgs (c : UseStateCall) (h : c.typeArgs = none) :
    checkUseState c = [] := by
  rw [checkUseState, h]
  split <;> rfl

theorem case2Check_no_args (c : UseStateCall) (tp : TsTypeNode) (h : c.args = []) :
    case2Check c tp = [] := by
  cases tp <;> simp [case2Check, h]

theorem case3Check_no_args (c : UseStateCall) (tp : TsTypeNode) (h : c.args = []) :
    case3Check c tp = [] := by
  cases tp <;> simp [case3Check, h]

theorem case4Check_not_undef (c : UseStateCall) (tp : TsTypeNode) (ta : TypeArgs)
    (h : isUndefKw tp = false) :
    case4Check c tp ta = [] := by
  cases tp with
  | undefT text rng => simp [isUndefKw] at h
  | unionT members text rng => rfl
  | nullT text rng => rfl
  | arrT elem text rng => rfl
  | strT text rng => rfl
  | numT text rng => rfl
  | boolT text rng => rfl
  | otherT text rng => rfl

theorem checkUseState_fixed_single (c : UseStateCall) (t : TsTypeNode) (r : Rng)
    (hta : c.typeArgs = some ⟨[t], r⟩) (hargs : c.args = [])
    (hkind : isUndefKw t = false) :
    checkUseState c = [] := by
  rw [checkUseState, hta]
  split
  · rfl
  · simp only [List.head?_cons, hargs, List.head?_nil, Bool.false_eq_true, if_false]
    rw [case2Check_no_args c t hargs, case3Check_no_args c t hargs,
      case4Check_not_undef c t ⟨[t], r⟩ hkind]
    rfl

end UseState

section
open PagePattern

/-- Claim C1 counterexample: in the page file src/app/home/page.tsx the
declaration let HomePage is reported by nextjs-page-pattern with the
notConst fix; applying that fix to the text yields const HomePage with
no type annotation, and re-running the same rule on the fixed file
reports again (missingNextPageType), so applying the fix and re-running
does not yield zero diagnostics. -/
theorem C1_notConst_fix_not_idempotent :
    runPagePattern "src/app/home/page.tsx" [⟨StmtKind.varK, ⟨0, 26⟩⟩]
      [PEvent.varDeclEv
        ⟨BindKind.letK, false,
          [⟨some "HomePage", ⟨4, 12⟩, none, some ⟨InitKind.arrowInit [], ⟨15, 25⟩⟩⟩],
          "let HomePage = () => null;", ⟨0, 26⟩⟩]
      = [{ messageId := "notConst", data := [], anchor := ⟨0, 26⟩,
           fix := some [⟨⟨0, 26⟩, "const HomePage = () => null;"⟩] }] ∧
    applyEdits "let HomePage = () => null;".data [⟨⟨0, 26⟩, "const HomePage = () => null;"⟩]
      = "const HomePage = () => null;".data ∧
    runPagePattern "src/app/home/page.tsx" [⟨StmtKind.varK, ⟨0, 28⟩⟩]
      [PEvent.varDeclEv
        ⟨BindKind.constK, false,
          [⟨some "HomePage", ⟨6, 14⟩, none, some ⟨InitKind.arrowInit [], ⟨17, 27⟩⟩⟩],
          "const HomePage = () => null;", ⟨0, 28⟩⟩]
      ≠ [] := by
  refine ⟨by decide, by decide, by decide⟩

end

/-- Claim C1 amended: applying the emitted fixes and re-running the same
rule yields zero diagnostics for lucide-icon-suffix (the fixed import
carries only Icon-suffixed names) and for supabase-no-direct-imports
(the fixed import source is the wrapper module); for
react-no-redundant-usestate-types the fixed call (type arguments
removed, or narrowed to the remaining member with an empty argument
list) is free of diagnostics whenever the remaining member is not the
undefined keyword; nextjs-page-pattern is not idempotent (see the
counterexample). -/
theorem C1_fix_idempotence_amended :
    (∀ decl : Lucide.ImportDecl,
      Lucide.checkLucideImport (Lucide.fixImportAst decl) = []) ∧
    (∀ (filename : String) (node : DirectImports.ImportDecl),
      DirectImports.checkImportDecl filename
        { node with source := DirectImports.replacementClient } = []) ∧
    (∀ c : UseState.UseStateCall, c.typeArgs = none → UseState.checkUseState c = []) ∧
    (∀ (c : UseState.UseStateCall) (t : UseState.TsTypeNode) (r : Rng),
      c.typeArgs = some ⟨[t], r⟩ → c.args = [] → UseState.isUndefKw t = false →
      UseState.checkUseState c = []) :=
  ⟨Lucide.checkLucideImport_fixImportAst,
   DirectImports.checkImportDecl_fixed,
   UseState.checkUseState_no_typeArgs,
   UseState.checkUseState_fixed_single⟩

/-- Witness for the amended C1 at concrete fixed files. -/
theorem C1_fix_idempotence_amended_witness :
    Lucide.checkLucideImport
      (Lucide.fixImportAst
        ⟨"lucide-react", [Lucide.Specifier.named "Home" ⟨9, 13⟩ "Home" ⟨9, 13⟩],
          [⟨"Home", [⟨⟨60, 64⟩, false⟩]⟩]⟩) = [] ∧
    DirectImports.checkImportDecl "src/app/a/page.tsx"
      { source := DirectImports.replacementClient, sourceRng := ⟨20, 45⟩,
        specifiers := [DirectImports.Specifier.named "createClient"], rng := ⟨0, 46⟩ } = [] ∧
    UseState.checkUseState
      { calleeName := some "useState", typeArgs := none,
        args := [UseState.Arg.litA (UseState.LitVal.boolv false) ⟨9, 14⟩],
        tbEnd := 8, openStart := 8, afterArgEnd := 15, rng := ⟨0, 15⟩ } = [] ∧
    UseState.checkUseState
      { calleeName := some "useState",
        typeArgs := some ⟨[UseState.TsTypeNode.numT "number" ⟨9, 15⟩], ⟨8, 16⟩⟩,
        args := [], tbEnd := 8, openStart := 16, afterArgEnd := 18, rng := ⟨0, 18⟩ } = [] := by
  refine ⟨C1_fix_idempotence_amended.1 _,
    C1_fix_idempotence_amended.2.1 "src/app/a/page.tsx"
      { source := DirectImports.replacementClient, sourceRng := ⟨20, 45⟩,
        specifiers := [DirectImports.Specifier.named "createClient"], rng := ⟨0, 46⟩ },
    C1_fix_idempotence_amended.2.2.1 _ rfl, ?_⟩
  · have h := C1_fix_idempotence_amended.2.2.2
      { calleeName := some "useState",
        typeArgs := some ⟨[UseState.TsTypeNode.numT "number" ⟨9, 15⟩], ⟨8, 16⟩⟩,
        args := [], tbEnd := 8, openStart := 16, afterArgEnd := 18, rng := ⟨0, 18⟩ }
      (UseState.TsTypeNode.numT "number" ⟨9, 15⟩) ⟨8, 16⟩ rfl rfl rfl
    exact h

/-- The useState call whose fixed form does hit the undefined-keyword
exception: here the rule fires again on the fixed call, which is why the
amended statement carries the proviso. -/
theorem C1_useState_undefined_exception :
    UseState.checkUseState
      { calleeName := some "useState",
        typeArgs := some ⟨[UseState.TsTypeNode.undefT "undefined" ⟨9, 18⟩], ⟨8, 19⟩⟩,
        args := [], tbEnd := 8, openStart := 19, afterArgEnd := 21, rng := ⟨0, 21⟩ }
      ≠ [] := by
  decide

/-- Range well-formedness against a text length. -/
def rngOk (len : Nat) (r : Rng) : Bool :=
  decide (r.start ≤ r.stop) && decide (r.stop ≤ len)

theorem editsOk_single (len : Nat) (e : Edit) (h : rngOk len e.rng = true) :
    editsOk len [e] = true := by
  simp only [editsOk, pairwiseSep, List.all_nil, Bool.and_self, List.all_cons,
    inBounds, Bool.and_eq_true, List.all_eq_true]
  simp only [rngOk, Bool.and_eq_true] at h
  simp [h.1, h.2]

theorem editsOk_pair (len : Nat) (e f : Edit)
    (he : rngOk len e.rng = true) (hf : rngOk len f.rng = true)
    (hsep : sepB e.rng f.rng = true) :
    editsOk len [e, f] = true := by
  simp only [rngOk, Bool.and_eq_true, decide_eq_true_iff] at he hf
  simp [editsOk, pairwiseSep, inBounds, hsep, he.1, he.2, hf.1, hf.2]

namespace RedirectRule

theorem runRedirect_no_fix (filename : String) (events : List RdEvent) :
    ∀ d ∈ runRedirect filename events, d.fix = none := by
  intro d hd
  rw [runRedirect] at hd
  split at hd
  · simp at hd
  · rw [exitReport] at hd
    split at hd
    · split at hd
      · split at hd
        · split at hd
          · split at hd
            · rcases List.mem_cons.mp hd with h | h
              · rw [h]
              · simp only [List.mem_singleton] at h
                rw [h]
            · simp at hd
          · simp at hd
        · simp at hd
      · simp at hd
    · simp at hd

end RedirectRule

namespace DirectImports

/-- Parser guarantee used by the edit-safety claim: the import source
string literal lies within the file. -/
def WFDirect (len : Nat) (node : ImportDecl) : Bool := rngOk len node.sourceRng

theorem checkImportDecl_edits_ok (len : Nat) (filename : String) (node : ImportDecl)
    (hwf : WFDirect len node = true) :
    ∀ d ∈ checkImportDecl filename node, ∀ es, d.fix = some es →
      editsOk len es = true := by
  intro d hd es hes
  rw [checkImportDecl] at hd
  rcases List.mem_append.mp hd with h | h
  · split at h
    · split at h
      · simp at h
      · split at h
        · simp at h
        · split at h
          · simp only [List.mem_singleton] at h
            rw [h] at hes
            simp only [Option.some.injEq] at hes
            rw [← hes]
            exact editsOk_single len _ hwf
          · simp at h
    · simp at h
  · split at h
    · split at h
      · simp at h
      · split at h
        · simp only [List.mem_singleton] at h
          rw [h] at hes
          simp at hes
        · simp at h
    · simp at h

end DirectImports

def pairwiseSepRngs : List Rng → Bool
  | [] => true
  | r :: rs => rs.all (fun t => sepB r t) && pairwiseSepRngs rs

theorem editsOk_cons (len : Nat) (e : Edit) (es : List Edit)
    (he : rngOk len e.rng = true)
    (hsep : es.all (fun f => sepB e.rng f.rng) = true)
    (hes : editsOk len es = true) : editsOk len (e :: es) = true := by
  simp only [editsOk, Bool.and_eq_true] at hes
  simp only [rngOk, Bool.and_eq_true] at he
  simp only [editsOk, pairwiseSep, List.all_cons, Bool.and_eq_true, inBounds]
  exact ⟨⟨hsep, hes.1⟩, ⟨by simp [he.1, he.2], hes.2⟩⟩

theorem editsOk_map_rng (len : Nat) (rngs : List Rng) (repl : String)
    (hok : rngs.all (rngOk len) = true)
    (hpw : pairwiseSepRngs rngs = true) :
    editsOk len (rngs.map (fun r => ⟨r, repl⟩)) = true := by
  induction rngs with
  | nil => rfl
  | cons r rs ih =>
    simp only [List.all_cons, Bool.and_eq_true] at hok
    simp only [pairwiseSepRngs, Bool.and_eq_true] at hpw
    rw [List.map_cons]
    apply editsOk_cons
    · exact hok.1
    · simpa [List.all_map, Function.comp] using hpw.1
    · exact ih hok.2 hpw.2

namespace Lucide

/-- The ranges the reference-rewrite edits of one specifier target. -/
def specEditRngs (decl : ImportDecl) (localName : String) : List Rng :=
  (decl.declaredVars.filter (fun v => v.name == localName)).flatMap
    (fun v => (v.refs.filter (fun rf => !rf.isLocalNode)).map (fun rf => rf.rng))

theorem refFixes_eq_map (sug : String) (decl : ImportDecl) (localName : String) :
    refFixes sug decl.declaredVars localName
      = (specEditRngs decl localName).map (fun r => ⟨r, sug⟩) := by
  simp only [refFixes, specEditRngs, List.map_flatMap, List.map_map]
  rfl

/-- Parser and scope-resolver guarantees used by the edit-safety claim:
each imported identifier and each reference identifier is a leaf node
within the file, and distinct identifier occurrences have disjoint
ranges. -/
def WFLucide (len : Nat) (decl : ImportDecl) : Bool :=
  decl.specifiers.all fun s =>
    match s with
    | .named _ impRng localName _ =>
      rngOk len impRng &&
      (specEditRngs decl localName).all (fun r => rngOk len r && sepB impRng r) &&
      pairwiseSepRngs (specEditRngs decl localName)
    | .other => true

theorem checkLucide_edits_ok (len : Nat) (decl : ImportDecl)
    (hwf : WFLucide len decl = true) :
    ∀ d ∈ checkLucideImport decl, ∀ es, d.fix = some es → editsOk len es = true := by
  intro d hd es hes
  rw [checkLucideImport] at hd
  split at hd
  · rcases List.mem_flatMap.mp hd with ⟨s, hs, hds⟩
    have hw := List.all_eq_true.mp hwf s hs
    cases s with
    | named imported impRng localName specRng =>
      rw [checkSpec] at hds
      split at hds
      · simp at hds
      · simp only [List.mem_singleton] at hds
        rw [hds] at hes
        simp only [Option.some.injEq] at hes
        rw [← hes]
        simp only [Bool.and_eq_true] at hw
        by_cases halias : (imported == localName) = true
        · simp only [halias, if_true]
          rw [refFixes_eq_map]
          apply editsOk_cons
          · exact hw.1.1
          · have hsepAll : (specEditRngs decl localName).all
                (fun r => sepB impRng r) = true := by
              refine List.all_eq_true.mpr ?_
              intro r hr
              have hh := List.all_eq_true.mp hw.1.2 r hr
              simp only [Bool.and_eq_true] at hh
              exact hh.2
            simpa [List.all_map, Function.comp] using hsepAll
          · apply editsOk_map_rng
            · refine List.all_eq_true.mpr ?_
              intro r hr
              have := List.all_eq_true.mp hw.1.2 r hr
              simp only [Bool.and_eq_true] at this
              exact this.1
            · exact hw.2
        · simp only [halias, if_false]
          exact editsOk_single len _ hw.1.1
    | other => simp [checkSpec] at hds
  · simp at hd

end Lucide

namespace UseState

/-- Parser guarantees used by the edit-safety claim: the token before
the type-argument clause ends before the open parenthesis starts, the
close parenthesis ends after it and within the file, and every type
parameter is a well formed range ending before the open parenthesis. -/
def WFUse (len : Nat) (c : UseStateCall) : Bool :=
  decide (c.tbEnd ≤ c.openStart) && decide (c.openStart ≤ c.afterArgEnd) &&
  decide (c.afterArgEnd ≤ len) &&
  (match c.typeArgs with
   | some ta => ta.params.all
       (fun t => decide (t.rng.start ≤ t.rng.stop) && decide (t.rng.stop ≤ c.openStart))
   | none => true)

theorem removeTypeArgsFix_ok (len : Nat) (c : UseStateCall)
    (h1 : c.tbEnd ≤ c.openStart) (h2 : c.openStart ≤ c.afterArgEnd)
    (h3 : c.afterArgEnd ≤ len) :
    editsOk len (removeTypeArgsFix c) = true := by
  apply editsOk_single
  simp only [rngOk, Bool.and_eq_true, decide_eq_true_iff]
  omega

theorem narrowUnionFix_ok (len : Nat) (c : UseStateCall) (tp base : TsTypeNode)
    (h1 : c.tbEnd ≤ c.openStart) (h2 : c.openStart ≤ c.afterArgEnd)
    (h3 : c.afterArgEnd ≤ len)
    (htp1 : tp.rng.start ≤ tp.rng.stop) (htp2 : tp.rng.stop ≤ c.openStart) :
    editsOk len (narrowUnionFix c tp base) = true := by
  rw [narrowUnionFix]
  by_cases hone : (c.args.length == 1) = true
  · simp only [hone, if_true]
    apply editsOk_pair
    · simp only [rngOk, Bool.and_eq_true, decide_eq_true_iff]
      omega
    · simp only [rngOk, Bool.and_eq_true, decide_eq_true_iff]
      omega
    · simp only [sepB, Bool.or_eq_true, decide_eq_true_iff]
      omega
  · simp only [hone, if_false]
    apply editsOk_single
    simp only [rngOk, Bool.and_eq_true, decide_eq_true_iff]
    omega

theorem case2Check_edits_ok (len : Nat) (c : UseStateCall) (tp : TsTypeNode)
    (h1 : c.tbEnd ≤ c.openStart) (h2 : c.openStart ≤ c.afterArgEnd)
    (h3 : c.afterArgEnd ≤ len)
    (htp1 : tp.rng.start ≤ tp.rng.stop) (htp2 : tp.rng.stop ≤ c.openStart) :
    ∀ d ∈ case2Check c tp, ∀ es, d.fix = some es → editsOk len es = true := by
  intro d hd es hes
  rw [case2Check.eq_def] at hd
  split at hd
  · split at hd
    · split at hd
      · split at hd
        · simp only [List.mem_singleton] at hd
          rw [hd] at hes
          simp only [Option.some.injEq] at hes
          rw [← hes]
          exact narrowUnionFix_ok len c _ _ h1 h2 h3 htp1 htp2
        · simp at hd
      · simp at hd
    · simp at hd
  · simp at hd

theorem case3Check_edits_ok (len : Nat) (c : UseStateCall) (tp : TsTypeNode)
    (h1 : c.tbEnd ≤ c.openStart) (h2 : c.openStart ≤ c.afterArgEnd)
    (h3 : c.afterArgEnd ≤ len)
    (htp1 : tp.rng.start ≤ tp.rng.stop) (htp2 : tp.rng.stop ≤ c.openStart) :
    ∀ d ∈ case3Check c tp, ∀ es, d.fix = some es → editsOk len es = true := by
  intro d hd es hes
  rw [case3Check.eq_def] at hd
  split at hd
  · split at hd
    · split at hd
      · simp only [List.mem_singleton] at hd
        rw [hd] at hes
        simp only [Option.some.injEq] at hes
        rw [← hes]
        exact narrowUnionFix_ok len c _ _ h1 h2 h3 htp1 htp2
      · simp at hd
    · simp at hd
  · simp at hd

theorem case4Check_edits_ok (len : Nat) (c : UseStateCall) (tp : TsTypeNode) (ta : TypeArgs)
    (h1 : c.tbEnd ≤ c.openStart) (h2 : c.openStart ≤ c.afterArgEnd)
    (h3 : c.afterArgEnd ≤ len) :
    ∀ d ∈ case4Check c tp ta, ∀ es, d.fix = some es → editsOk len es = true := by
  intro d hd es hes
  rw [case4Check.eq_def] at hd
  split at hd
  · split at hd
    · simp only [List.mem_singleton] at hd
      rw [hd] at hes
      simp only [Option.some.injEq] at hes
      rw [← hes]
      exact removeTypeArgsFix_ok len c h1 h2 h3
    · simp at hd
  · simp at hd

theorem checkUseState_edits_ok (len : Nat) (c : UseStateCall)
    (hwf : WFUse len c = true) :
    ∀ d ∈ checkUseState c, ∀ es, d.fix = some es → editsOk len es = true := by
  intro d hd es hes
  simp only [WFUse, Bool.and_eq_true, decide_eq_true_iff] at hwf
  obtain ⟨⟨⟨h1, h2⟩, h3⟩, hparams⟩ := hwf
  rw [checkUseState] at hd
  split at hd
  · simp at hd
  · rcases hta : c.typeArgs with _ | ta
    · rw [hta] at hd
      simp at hd
    · rw [hta] at hd hparams
      dsimp only at hd hparams
      rcases hhead : ta.params.head? with _ | tp
      · rw [hhead] at hd
        simp at hd
      · rw [hhead] at hd
        dsimp only at hd
        have htp : tp.rng.start ≤ tp.rng.stop ∧ tp.rng.stop ≤ c.openStart := by
          have hmem : tp ∈ ta.params := by
            cases hp : ta.params with
            | nil =>
              rw [hp] at hhead
              simp at hhead
            | cons x xs =>
              rw [hp] at hhead
              simp only [List.head?_cons, Option.some.injEq] at hhead
              rw [← hhead]
              exact List.mem_cons_self x xs
          have hall := List.all_eq_true.mp hparams tp hmem
          simpa [Bool.and_eq_true, decide_eq_true_iff] using hall
        split at hd
        · simp only [List.mem_singleton] at hd
          rw [hd] at hes
          simp only [Option.some.injEq] at hes
          rw [← hes]
          exact removeTypeArgsFix_ok len c h1 h2 h3
        · rcases List.mem_append.mp hd with hc | hc
          · rcases List.mem_append.mp hc with hc2 | hc2
            · exact case2Check_edits_ok len c tp h1 h2 h3 htp.1 htp.2 d hc2 es hes
            · exact case3Check_edits_ok len c tp h1 h2 h3 htp.1 htp.2 d hc2 es hes
          · exact case4Check_edits_ok len c tp ta h1 h2 h3 d hc es hes

end UseState

theorem sepB_zero_left (r : Rng) : sepB ⟨0, 0⟩ r = true := by
  simp [sepB]

theorem sepB_empty_empty (s t : Nat) : sepB ⟨s, s⟩ ⟨t, t⟩ = true := by
  simp only [sepB, Bool.or_eq_true, decide_eq_true_iff]
  omega

namespace PagePattern

/-- Well-formedness of the program body: every top-level statement range
lies within the file. -/
def wfBody (len : Nat) (body : List BodyStmt) : Bool :=
  body.all (fun s => rngOk len s.rng)

/-- The identifier range a default export contributes to later fixes. -/
def edIdentRngOf (e : EDEvent) : Option Rng :=
  match e.decl with
  | .identDecl _ r => some r
  | _ => none

def stateEdRng (st : PState) : Option Rng :=
  match st.defaultExport with
  | some e => edIdentRngOf e
  | none => none

/-- Parser guarantees for an export-default event: its range is well
formed, and the first import statement (a distinct sibling) starts
outside it. -/
def wfED (len : Nat) (body : List BodyStmt) (e : EDEvent) : Bool :=
  rngOk len e.rng &&
  (match body.find? (fun s => s.kind == StmtKind.importK) with
   | some fi => sepB ⟨fi.rng.start, fi.rng.start⟩ e.rng
   | none => true)

/-- Parser guarantees for an export-named event: its range is well
formed and ends at or before the end of the last top-level statement,
which it never straddles. -/
def wfEN (len : Nat) (body : List BodyStmt) (e : ENEvent) : Bool :=
  rngOk len e.rng &&
  (match body.getLast? with
   | some lastNode => sepB e.rng ⟨lastNode.rng.stop, lastNode.rng.stop⟩
   | none => true)

/-- Parser guarantees for a variable-declaration event: all mentioned
ranges are well formed; the declared identifier is disjoint from the
identifier of any previously seen default export (distinct identifier
leaves); the first import statement starts outside any replaced type
annotation (distinct sibling statements). -/
def wfVD (len : Nat) (body : List BodyStmt) (edRng : Option Rng) (e : VDEvent) : Bool :=
  rngOk len e.rng &&
  e.declarators.all (fun d =>
    rngOk len d.idRng &&
    (match d.tyAnn with | some rt => rngOk len rt.1 | none => true) &&
    (match d.init with | some i => rngOk len i.rng | none => true) &&
    (match edRng with | some r => rngOk len r && sepB d.idRng r | none => true) &&
    (match body.find? (fun s => s.kind == StmtKind.importK) with
     | some fi =>
       (match d.tyAnn with
        | some rt => sepB ⟨fi.rng.start, fi.rng.start⟩ rt.1
        | none => true)
     | none => true))

/-- Well-formedness of the whole event list, tracking the identifier
range of the most recent default export the way the rule state does. -/
def wfEvents (len : Nat) (body : List BodyStmt) : Option Rng → List PEvent → Bool
  | _, [] => true
  | edRng, ev :: evs =>
    match ev with
    | .importEv _ => wfEvents len body edRng evs
    | .exportDefaultEv e => wfED len body e && wfEvents len body (edIdentRngOf e) evs
    | .exportNamedEv e => wfEN len body e && wfEvents len body edRng evs
    | .varDeclEv e => wfVD len body edRng e && wfEvents len body edRng evs

theorem editsOk_inj_plus (len : Nat) (hasImport : Bool) (body : List BodyStmt)
    (second : Edit)
    (hbody : wfBody len body = true)
    (hsecond : rngOk len second.rng = true)
    (hsep : ∀ fi, body.find? (fun s => s.kind == StmtKind.importK) = some fi →
      sepB ⟨fi.rng.start, fi.rng.start⟩ second.rng = true) :
    editsOk len (maybeImportInjection hasImport body ++ [second]) = true := by
  rw [maybeImportInjection]
  by_cases h : hasImport = true
  · simp only [h, if_true, List.nil_append]
    exact editsOk_single len second hsecond
  · simp only [h, Bool.false_eq_true, if_false]
    rw [importInjection]
    cases hfi : body.find? (fun s => s.kind == StmtKind.importK) with
    | some fi =>
      simp only [List.cons_append, List.nil_append]
      apply editsOk_pair
      · have hmem := List.mem_of_find?_eq_some hfi
        have hr := List.all_eq_true.mp hbody fi hmem
        simp only [rngOk, Bool.and_eq_true, decide_eq_true_iff] at hr ⊢
        omega
      · exact hsecond
      · exact hsep fi hfi
    | none =>
      simp only [List.cons_append, List.nil_append]
      apply editsOk_pair
      · simp [rngOk]
      · exact hsecond
      · exact sepB_zero_left second.rng

theorem handleExportDefault_ok (len : Nat) (filename : String) (body : List BodyStmt)
    (st : PState) (e : EDEvent)
    (hED : wfED len body e = true) (hbody : wfBody len body = true) :
    ∀ d ∈ (handleExportDefault filename body st e).2, ∀ es, d.fix = some es →
      editsOk len es = true := by
  intro d hd es hes
  simp only [wfED, Bool.and_eq_true] at hED
  rw [handleExportDefault] at hd
  split at hd
  · simp only [List.mem_singleton] at hd
    rw [hd] at hes
    simp only [Option.some.injEq] at hes
    rw [← hes]
    apply editsOk_inj_plus len _ body _ hbody hED.1
    intro fi hfi
    have := hED.2
    rw [hfi] at this
    exact this
  · simp at hd

theorem handleExportNamed_ok (len : Nat) (body : List BodyStmt)
    (st : PState) (e : ENEvent)
    (hEN : wfEN len body e = true) (hbody : wfBody len body = true) :
    ∀ d ∈ (handleExportNamed body st e).2, ∀ es, d.fix = some es →
      editsOk len es = true := by
  intro d hd es hes
  simp only [wfEN, Bool.and_eq_true] at hEN
  rw [handleExportNamed] at hd
  split at hd
  · split at hd
    · split at hd
      · split at hd
        · simp only [List.mem_singleton] at hd
          rw [hd] at hes
          simp only [Option.some.injEq] at hes
          rw [← hes]
          split
          · simp only [List.append_nil]
            exact editsOk_single len _ hEN.1
          · cases hlast : body.getLast? with
            | some lastNode =>
              simp only [hlast, List.cons_append, List.nil_append]
              apply editsOk_pair
              · exact hEN.1
              · have hmem := List.mem_of_getLast?_eq_some hlast
                have hr := List.all_eq_true.mp hbody lastNode hmem
                simp only [rngOk, Bool.and_eq_true, decide_eq_true_iff] at hr ⊢
                omega
              · have := hEN.2
                rw [hlast] at this
                exact this
            | none =>
              simp only [hlast, List.append_nil]
              exact editsOk_single len _ hEN.1
        · simp at hd
      · simp at hd
    · simp at hd
  · simp at hd

end PagePattern

namespace PagePattern

theorem checkConstDeclarator_ok (len : Nat) (filename : String) (body : List BodyStmt)
    (st : PState) (d : Declarator)
    (hbody : wfBody len body = true)
    (hid : rngOk len d.idRng = true)
    (hty : (match d.tyAnn with | some rt => rngOk len rt.1 | none => true) = true)
    (hinit : (match d.init with | some i => rngOk len i.rng | none => true) = true)
    (hed : (match stateEdRng st with
            | some r => rngOk len r && sepB d.idRng r
            | none => true) = true)
    (hfi : (match body.find? (fun s => s.kind == StmtKind.importK) with
            | some fi =>
              (match d.tyAnn with
               | some rt => sepB ⟨fi.rng.start, fi.rng.start⟩ rt.1
               | none => true)
            | none => true) = true) :
    ∀ dg ∈ checkConstDeclarator filename body st d, ∀ es, dg.fix = some es →
      editsOk len es = true := by
  intro dg hdg es hes
  rw [checkConstDeclarator.eq_def] at hdg
  rcases hdn : d.idName with _ | componentName
  · rw [hdn] at hdg
    simp at hdg
  rcases hdi : d.init with _ | init
  · rw [hdn, hdi] at hdg
    simp at hdg
  rw [hdn, hdi] at hdg
  dsimp only at hdg
  split at hdg
  swap
  · simp at hdg
  rcases List.mem_append.mp hdg with hAB | hC
  rcases List.mem_append.mp hAB with hA | hB
  · split at hA
    swap
    · simp at hA
    simp only [List.mem_singleton] at hA
    rw [hA] at hes
    simp only [Option.some.injEq] at hes
    rw [← hes]
    cases hde : st.defaultExport with
    | none =>
      simp only [hde, List.append_nil]
      apply editsOk_single
      exact hid
    | some ed =>
      simp only [hde]
      cases hdecl : ed.decl with
      | identDecl n r =>
        by_cases hn : (n == componentName) = true
        · simp only [hdecl, hn, if_true, List.cons_append, List.nil_append]
          have hed2 : stateEdRng st = some r := by
            simp [stateEdRng, hde, edIdentRngOf, hdecl]
          rw [hed2] at hed
          simp only [Bool.and_eq_true] at hed
          apply editsOk_pair
          · exact hid
          · exact hed.1
          · exact hed.2
        · simp only [hdecl, hn, Bool.false_eq_true, if_false, List.append_nil]
          apply editsOk_single
          exact hid
      | funcDecl f =>
        simp only [hdecl, List.append_nil]
        apply editsOk_single
        exact hid
      | otherDecl =>
        simp only [hdecl, List.append_nil]
        apply editsOk_single
        exact hid
  · split at hB
    swap
    · simp at hB
    simp only [List.mem_singleton] at hB
    rw [hB] at hes
    simp only [Option.some.injEq] at hes
    rw [← hes]
    cases hta : d.tyAnn with
    | some rt =>
      simp only [hta]
      apply editsOk_inj_plus len _ body _ hbody
      · rw [hta] at hty
        exact hty
      · intro fi hfi2
        rw [hfi2, hta] at hfi
        exact hfi
    | none =>
      simp only [hta]
      apply editsOk_inj_plus len _ body _ hbody
      · simp only [rngOk, Bool.and_eq_true, decide_eq_true_iff] at hid ⊢
        omega
      · intro fi _
        exact sepB_empty_empty fi.rng.start d.idRng.stop
  · split at hC
    · simp at hC
    · simp only [List.mem_singleton] at hC
      rw [hC] at hes
      simp only [Option.some.injEq] at hes
      rw [← hes]
      apply editsOk_single
      rw [hdi] at hinit
      exact hinit
    · simp only [List.mem_singleton] at hC
      rw [hC] at hes
      simp at hes

end PagePattern

namespace PagePattern

theorem checkLetVarDeclarator_ok (len : Nat) (e : VDEvent) (d : Declarator)
    (hrng : rngOk len e.rng = true) :
    ∀ dg ∈ checkLetVarDeclarator e d, ∀ es, dg.fix = some es →
      editsOk len es = true := by
  intro dg hdg es hes
  rw [checkLetVarDeclarator.eq_def] at hdg
  split at hdg
  · split at hdg
    · simp only [List.mem_singleton] at hdg
      rw [hdg] at hes
      simp only [Option.some.injEq] at hes
      rw [← hes]
      apply editsOk_single
      exact hrng
    · simp at hdg
  · simp at hdg

theorem handleVarDecl_ok (len : Nat) (filename : String) (body : List BodyStmt)
    (st : PState) (e : VDEvent) (edRng : Option Rng)
    (hwf : wfVD len body edRng e = true)
    (hbody : wfBody len body = true)
    (hst : stateEdRng st = edRng) :
    ∀ dg ∈ handleVarDecl filename body st e, ∀ es, dg.fix = some es →
      editsOk len es = true := by
  intro dg hdg es hes
  simp only [wfVD, Bool.and_eq_true] at hwf
  rw [handleVarDecl] at hdg
  rcases List.mem_append.mp hdg with hconst | hletvar
  · split at hconst
    · rcases List.mem_flatMap.mp hconst with ⟨d, hdmem, hdg2⟩
      have hw := List.all_eq_true.mp hwf.2 d hdmem
      simp only [Bool.and_eq_true] at hw
      apply checkConstDeclarator_ok len filename body st d hbody
        hw.1.1.1.1 hw.1.1.1.2 hw.1.1.2 (hst ▸ hw.1.2) hw.2 dg hdg2 es hes
    · simp at hconst
  · split at hletvar
    · rcases List.mem_flatMap.mp hletvar with ⟨d, _, hdg2⟩
      exact checkLetVarDeclarator_ok len e d hwf.1 dg hdg2 es hes
    · simp at hletvar

theorem stepP_state (filename : String) (body : List BodyStmt)
    (st : PState) (acc : List Diagnostic) (ev : PEvent) :
    stateEdRng (stepP filename body (st, acc) ev).1 =
      (match ev with
       | .exportDefaultEv e => edIdentRngOf e
       | _ => stateEdRng st) := by
  cases ev with
  | importEv ie =>
    rw [stepP]
    split <;> rfl
  | exportDefaultEv e =>
    rw [stepP, handleExportDefault.eq_def]
    split <;> rfl
  | exportNamedEv e =>
    rw [stepP, handleExportNamed.eq_def]
    dsimp only
    split
    · split
      · split
        · split <;> rfl
        · rfl
      · rfl
    · rfl
  | varDeclEv e => rfl

theorem stepP_acc (filename : String) (body : List BodyStmt)
    (st : PState) (acc : List Diagnostic) (ev : PEvent) :
    ∃ ds, (stepP filename body (st, acc) ev).2 = acc ++ ds ∧
      (∀ d ∈ ds, d ∈ (match ev with
        | .importEv _ => ([] : List Diagnostic)
        | .exportDefaultEv e => (handleExportDefault filename body st e).2
        | .exportNamedEv e => (handleExportNamed body st e).2
        | .varDeclEv e => handleVarDecl filename body st e)) := by
  cases ev with
  | importEv ie =>
    refine ⟨[], ?_, by simp⟩
    rw [stepP]
    split <;> simp
  | exportDefaultEv e => exact ⟨_, rfl, fun d hd => hd⟩
  | exportNamedEv e => exact ⟨_, rfl, fun d hd => hd⟩
  | varDeclEv e => exact ⟨_, rfl, fun d hd => hd⟩

theorem foldP_edits_ok (len : Nat) (filename : String) (body : List BodyStmt)
    (hbody : wfBody len body = true) :
    ∀ (events : List PEvent) (st : PState) (acc : List Diagnostic) (edRng : Option Rng),
      wfEvents len body edRng events = true →
      stateEdRng st = edRng →
      (∀ d ∈ acc, ∀ es, d.fix = some es → editsOk len es = true) →
      ∀ d ∈ (events.foldl (stepP filename body) (st, acc)).2, ∀ es, d.fix = some es →
        editsOk len es = true := by
  intro events
  induction events with
  | nil => intro st acc edRng _ _ hacc; exact hacc
  | cons ev evs ih =>
    intro st acc edRng hwf hst hacc
    rw [List.foldl_cons]
    obtain ⟨ds, heq, hds⟩ := stepP_acc filename body st acc ev
    have hstate := stepP_state filename body st acc ev
    have hpair : stepP filename body (st, acc) ev
        = ((stepP filename body (st, acc) ev).1, (stepP filename body (st, acc) ev).2) := rfl
    rw [hpair, heq]
    cases ev with
    | importEv ie =>
      rw [wfEvents] at hwf
      apply ih (stepP filename body (st, acc) (.importEv ie)).1 (acc ++ ds) edRng hwf
      · rw [hstate]
        exact hst
      · intro d hd es hes
        rcases List.mem_append.mp hd with h | h
        · exact hacc d h es hes
        · have := hds d h
          simp at this
    | exportDefaultEv e =>
      rw [wfEvents] at hwf
      simp only [Bool.and_eq_true] at hwf
      apply ih _ (acc ++ ds) (edIdentRngOf e) hwf.2
      · rw [hstate]
      · intro d hd es hes
        rcases List.mem_append.mp hd with h | h
        · exact hacc d h es hes
        · exact handleExportDefault_ok len filename body st e hwf.1 hbody d (hds d h) es hes
    | exportNamedEv e =>
      rw [wfEvents] at hwf
      simp only [Bool.and_eq_true] at hwf
      apply ih _ (acc ++ ds) edRng hwf.2
      · rw [hstate]
        exact hst
      · intro d hd es hes
        rcases List.mem_append.mp hd with h | h
        · exact hacc d h es hes
        · exact handleExportNamed_ok len body st e hwf.1 hbody d (hds d h) es hes
    | varDeclEv e =>
      rw [wfEvents] at hwf
      simp only [Bool.and_eq_true] at hwf
      apply ih _ (acc ++ ds) edRng hwf.2
      · rw [hstate]
        exact hst
      · intro d hd es hes
        rcases List.mem_append.mp hd with h | h
        · exact hacc d h es hes
        · exact handleVarDecl_ok len filename body st e edRng hwf.1 hbody hst d (hds d h) es hes

/-- Every fix emitted by nextjs-page-pattern on a well formed file has
pairwise separated, in-bounds edits. -/
theorem runPagePattern_edits_ok (len : Nat) (filename : String) (body : List BodyStmt)
    (events : List PEvent)
    (hbody : wfBody len body = true)
    (hwf : wfEvents len body none events = true) :
    ∀ d ∈ runPagePattern filename body events, ∀ es, d.fix = some es →
      editsOk len es = true := by
  intro d hd es hes
  rw [runPagePattern] at hd
  split at hd
  · simp at hd
  · exact foldP_edits_ok len filename body hbody events ⟨false, none, []⟩ [] none
      hwf rfl (by simp) d hd es hes

end PagePattern

/-- Claim C2: for every diagnostic emitted with a fix by any of the six
rules, the fix's edits are pairwise non-overlapping half-open ranges
within the bounds of the source text (under the parser's range
guarantees, expressed by the per-rule well-formedness predicates), the
two fixless rules never attach a fix, separated-and-bounded edit sets
are pairwise non-overlapping, and applying such an edit set leaves every
byte outside the edited ranges unchanged, at its shifted position. -/
theorem C2_fix_edit_safety :
    (∀ (len : Nat) (filename : String) (node : DirectImports.ImportDecl),
      DirectImports.WFDirect len node = true →
      ∀ d ∈ DirectImports.checkImportDecl filename node, ∀ es, d.fix = some es →
        editsOk len es = true) ∧
    (∀ (len : Nat) (decl : Lucide.ImportDecl),
      Lucide.WFLucide len decl = true →
      ∀ d ∈ Lucide.checkLucideImport decl, ∀ es, d.fix = some es →
        editsOk len es = true) ∧
    (∀ (len : Nat) (c : UseState.UseStateCall),
      UseState.WFUse len c = true →
      ∀ d ∈ UseState.checkUseState c, ∀ es, d.fix = some es →
        editsOk len es = true) ∧
    (∀ (len : Nat) (filename : String) (body : List PagePattern.BodyStmt)
        (events : List PagePattern.PEvent),
      PagePattern.wfBody len body = true →
      PagePattern.wfEvents len body none events = true →
      ∀ d ∈ PagePattern.runPagePattern filename body events, ∀ es, d.fix = some es →
        editsOk len es = true) ∧
    (∀ c : InsertRule.CallExpr, ∀ d ∈ InsertRule.checkInsertCall c, d.fix = none) ∧
    (∀ (filename : String) (events : List RedirectRule.RdEvent),
      ∀ d ∈ RedirectRule.runRedirect filename events, d.fix = none) ∧
    (∀ (len : Nat) (es : List Edit), editsOk len es = true →
      List.Pairwise (fun a b : Edit => ¬ Rng.Overlap a.rng b.rng) es) ∧
    (∀ (text : List Char) (es : List Edit), editsOk text.length es = true →
      ∀ p, p < text.length → (∀ e ∈ es, ¬ (e.rng.start ≤ p ∧ p < e.rng.stop)) →
      (applyEdits text es)[appIdx es p]? = text[p]?) :=
  ⟨DirectImports.checkImportDecl_edits_ok,
   Lucide.checkLucide_edits_ok,
   UseState.checkUseState_edits_ok,
   fun len filename body events hb hw =>
     PagePattern.runPagePattern_edits_ok len filename body events hb hw,
   InsertRule.checkInsertCall_no_fix,
   RedirectRule.runRedirect_no_fix,
   fun _ _ h => editsOk_pairwise_not_overlap h,
   fun text es h p hp hout => applyEdits_preserves text es h p hp hout⟩

/-- Witness for C2, instantiating every conjunct at a concrete input. -/
theorem C2_fix_edit_safety_witness :
    editsOk 46 [⟨⟨20, 45⟩, "\"@/integrations/supabase/client\""⟩] = true ∧
    editsOk 100 [⟨⟨9, 13⟩, "HomeIcon"⟩, ⟨⟨60, 64⟩, "HomeIcon"⟩] = true ∧
    editsOk 39 [⟨⟨9, 27⟩, "number"⟩, ⟨⟨28, 39⟩, "()"⟩] = true ∧
    editsOk 48
      [⟨⟨0, 0⟩, "import type \x7b NextPage \x7d from \"next\";\n\n"⟩,
       ⟨⟨0, 48⟩, "const BlogPostsPage: NextPage = () => \x7b return <x/>; \x7d;\n\nexport default BlogPostsPage;"⟩] = true ∧
    (InsertRule.mkDiag ⟨13, 22⟩).fix = none ∧
    ({ messageId := "useConfigRedirect",
       data := [("source", "/old-path"), ("destination", "/login"), ("permanent", "false")],
       anchor := ⟨74, 92⟩, fix := none } : Diagnostic).fix = none ∧
    List.Pairwise (fun a b : Edit => ¬ Rng.Overlap a.rng b.rng)
      [⟨⟨0, 1⟩, "X"⟩] ∧
    (applyEdits "ab".data [⟨⟨0, 1⟩, "X"⟩])[appIdx [⟨⟨0, 1⟩, "X"⟩] 1]? = "ab".data[1]? := by
  refine ⟨?_, ?_, ?_, ?_, ?_, ?_, ?_, ?_⟩
  · exact C2_fix_edit_safety.1 46 "src/app/x.ts"
      ⟨"@supabase/supabase-js", ⟨20, 45⟩, [DirectImports.Specifier.named "createClient"], ⟨0, 46⟩⟩
      (by decide)
      { messageId := "noDirectSupabaseImport",
        data := [("source", "@supabase/supabase-js"),
                 ("replacement", "@/integrations/supabase/client")],
        anchor := ⟨0, 46⟩,
        fix := some [⟨⟨20, 45⟩, "\"@/integrations/supabase/client\""⟩] }
      (by decide) _ rfl
  · exact C2_fix_edit_safety.2.1 100
      ⟨"lucide-react", [Lucide.Specifier.named "Home" ⟨9, 13⟩ "Home" ⟨9, 13⟩],
        [⟨"Home", [⟨⟨9, 13⟩, true⟩, ⟨⟨60, 64⟩, false⟩]⟩]⟩
      (by decide)
      { messageId := "missingIconSuffix",
        data := [("imported", "Home"), ("suggested", "HomeIcon")],
        anchor := ⟨9, 13⟩,
        fix := some [⟨⟨9, 13⟩, "HomeIcon"⟩, ⟨⟨60, 64⟩, "HomeIcon"⟩] }
      (by decide) _ rfl
  · exact C2_fix_edit_safety.2.2.1 39
      { calleeName := some "useState",
        typeArgs := some
          { params := [UseState.TsTypeNode.unionT
              [UseState.TsTypeNode.numT "number" ⟨9, 15⟩,
               UseState.TsTypeNode.undefT "undefined" ⟨18, 27⟩]
              "number | undefined" ⟨9, 27⟩],
            rng := ⟨8, 28⟩ },
        args := [UseState.Arg.identA "undefined" ⟨29, 38⟩],
        tbEnd := 8, openStart := 28, afterArgEnd := 39, rng := ⟨0, 39⟩ }
      (by decide)
      { messageId := "redundantUndefinedUnion",
        data := [("baseType", "number")],
        anchor := ⟨0, 39⟩,
        fix := some [⟨⟨9, 27⟩, "number"⟩, ⟨⟨28, 39⟩, "()"⟩] }
      (by decide) _ rfl
  · exact C2_fix_edit_safety.2.2.2.1 48 "src/app/blog-posts/page.tsx"
      [⟨PagePattern.StmtKind.exportDefaultK, ⟨0, 48⟩⟩]
      [PagePattern.PEvent.exportDefaultEv
        ⟨PagePattern.EDDecl.funcDecl ⟨some "Home", [], "\x7b return <x/>; \x7d", false⟩, ⟨0, 48⟩⟩]
      (by decide) (by decide)
      { messageId := "noExportDefaultFunction", data := [], anchor := ⟨0, 48⟩,
        fix := some
          [⟨⟨0, 0⟩, "import type \x7b NextPage \x7d from \"next\";\n\n"⟩,
           ⟨⟨0, 48⟩, "const BlogPostsPage: NextPage = () => \x7b return <x/>; \x7d;\n\nexport default BlogPostsPage;"⟩] }
      (by decide) _ rfl
  · exact C2_fix_edit_safety.2.2.2.2.1
      ⟨InsertRule.Callee.member (some "insert"),
        [InsertRule.InsertArg.arrayA
          [InsertRule.ArrElem.objE
            [InsertRule.ObjMember.property (InsertRule.PKey.identK "id") false] ⟨13, 22⟩] ⟨12, 23⟩]⟩
      (InsertRule.mkDiag ⟨13, 22⟩) (by decide)
  · exact C2_fix_edit_safety.2.2.2.2.2.1 "src/app/(marketing)/old-path/page.tsx"
      [RedirectRule.RdEvent.callExpr ⟨some "redirect", [RedirectRule.RdArg.strLit "/login"], ⟨74, 92⟩⟩]
      { messageId := "useConfigRedirect",
        data := [("source", "/old-path"), ("destination", "/login"), ("permanent", "false")],
        anchor := ⟨74, 92⟩, fix := none }
      (by decide)
  · exact C2_fix_edit_safety.2.2.2.2.2.2.1 2 [⟨⟨0, 1⟩, "X"⟩] (by decide)
  · exact C2_fix_edit_safety.2.2.2.2.2.2.2 "ab".data [⟨⟨0, 1⟩, "X"⟩] (by decide) 1
      (by decide) (by decide)
